import Mathlib

/-!
Huffman coding: tree construction and code generation.

A shallow embedding of `src/main.cpp`.

* A value of `HuffmanNode` stands for a C++ `HuffmanNode*`: either the null
  pointer or a node with its four fields.  The tree is owned hierarchically, so
  a pointer is modelled by the subtree it points to.
* `int` weights come in two readings.  `mergeStep`, `mergeLoop` and
  `buildHuffmanTree` take them as exact integers; `mergeStep32`, `mergeLoop32` and
  `buildHuffmanTree32` add them as the compiled program does, wrapped to 32 bits.  The
  two builds agree while the frequencies are positive and sum to less than 2^31
  (`build32_eq`).  The `long long` totals are exact integers.
* `std::priority_queue` is library code.  Its contents are modelled as a list;
  `top` returns an element that the comparator `MinHeapCompare` orders after no
  other element.  Which of several such elements is returned is decided by the
  library's heap layout; it is taken as the parameter `tie`, and every theorem
  holds for every `tie`.
* Reading past the end of `f` and reading the top of an empty queue have no
  defined result in C++; the model marks them with a `Fault`, which is not an error
  reported by the program.
* `std::map<char, string>` is modelled as a key-sorted association list.
-/

namespace Huffman

/-- The pointer type `HuffmanNode*`: null, or a node `(ch, freq, left, right)`. -/
inductive HuffmanNode where
  | null : HuffmanNode
  | node (ch : Char) (freq : Int) (left right : HuffmanNode) : HuffmanNode
  deriving DecidableEq, Repr

namespace HuffmanNode

/-- Field `freq` of the pointed-to node (the queue never holds null). -/
def freq : HuffmanNode → Int
  | null => 0
  | node _ w _ _ => w

/-- Field `ch` of the pointed-to node. -/
def ch : HuffmanNode → Char
  | null => '#'
  | node c _ _ _ => c

end HuffmanNode

open HuffmanNode

/-- Marks for what the C++ code leaves undefined (a read of the top of an empty queue,
a read past the end of `f`), and for exhausted loop fuel in the model.  A result
`.error u` is not an error that the program reports: the source checks nothing and
raises nothing. -/
inductive Fault where
  | emptyTop
  | indexOutOfRange
  | outOfFuel
  deriving DecidableEq, Repr

/-- The comparator `MinHeapCompare::operator()`: `a->freq > b->freq`. -/
def MinHeapCompare (a b : HuffmanNode) : Bool :=
  decide (a.freq > b.freq)

/-- Contents of the `priority_queue<HuffmanNode*, vector<HuffmanNode*>, MinHeapCompare>`. -/
abbrev MinHeap := List HuffmanNode

/-- The library's choice among equally ranked elements. -/
abbrev TieBreak := MinHeap → Nat

/-- Operation `minHeap.push(x)`. -/
def push (q : MinHeap) (x : HuffmanNode) : MinHeap :=
  q ++ [x]

/-- Elements that `top()` may return: those the comparator puts after no element. -/
def topCandidates (q : MinHeap) : List HuffmanNode :=
  q.filter (fun x => q.all (fun y => !MinHeapCompare x y))

/-- Operation `minHeap.top()`.  On an empty queue the read is undefined in C++; the
model marks it with `emptyTop`. -/
def top (tie : TieBreak) (q : MinHeap) : Except Fault HuffmanNode :=
  match (topCandidates q)[tie q % (topCandidates q).length]? with
  | some x => .ok x
  | none => .error .emptyTop

/-- Operation `minHeap.pop()`: removes the element that `top()` returns. -/
def pop (tie : TieBreak) (q : MinHeap) : Except Fault MinHeap :=
  match top tie q with
  | .ok x => .ok (q.erase x)
  | .error e => .error e

/-- Step 1 of `buildHuffmanTree`: one leaf `HuffmanNode(S[i], f[i])` per index of `S`. -/
def initLeaves : List Char → List Int → MinHeap → Except Fault MinHeap
  | [], _, q => .ok q
  | _ :: _, [], _ => .error .indexOutOfRange
  | c :: S, w :: f, q => initLeaves S f (push q (node c w null null))

/-- Body of the loop of step 2: extract two nodes, merge them under a new `'#'`
node whose weight is the sum of theirs, and insert that node.  The sum is exact here;
`mergeStep32` computes it in 32-bit `int`. -/
def mergeStep (tie : TieBreak) (q : MinHeap) : Except Fault MinHeap := do
  let leftNode ← top tie q
  let q1 ← pop tie q
  let rightNode ← top tie q1
  let q2 ← pop tie q1
  let newNode := node '#' (leftNode.freq + rightNode.freq) leftNode rightNode
  pure (push q2 newNode)

/-- Step 2 of `buildHuffmanTree`: the loop `while (minHeap.size() > 1)`. -/
def mergeLoop (tie : TieBreak) : Nat → MinHeap → Except Fault MinHeap
  | 0, q => if q.length > 1 then .error .outOfFuel else .ok q
  | fuel + 1, q =>
    if q.length > 1 then do
      let q1 ← mergeStep tie q
      mergeLoop tie fuel q1
    else .ok q

/-- The function `buildHuffmanTree(S, f)`. -/
def buildHuffmanTree (tie : TieBreak) (S : List Char) (f : List Int) :
    Except Fault HuffmanNode := do
  let q0 ← initLeaves S f []
  let q ← mergeLoop tie q0.length q0
  top tie q

/-- The type `map<char, string>`, kept sorted by key. -/
abbrev CodeMap := List (Char × List Char)

/-- Lookup: `some code` when `symbolCodes.count(k) != 0`, with `code = symbolCodes.at(k)`. -/
def CodeMap.find (m : CodeMap) (k : Char) : Option (List Char) :=
  match m with
  | [] => none
  | (k1, v1) :: rest => if k1 = k then some v1 else CodeMap.find rest k

/-- Assignment `symbolCodes[k] = v`. -/
def CodeMap.assign (m : CodeMap) (k : Char) (v : List Char) : CodeMap :=
  match m with
  | [] => [(k, v)]
  | (k1, v1) :: rest =>
    if k1 = k then (k, v) :: rest
    else if k < k1 then (k, v) :: (k1, v1) :: rest
    else (k1, v1) :: CodeMap.assign rest k v

/-- The keys of the map, in order. -/
def CodeMap.keys (m : CodeMap) : List Char :=
  m.map Prod.fst

/-- The function `generateCodes(rootNode, code, symbolCodes)`; returns the updated map. -/
def generateCodes : HuffmanNode → List Char → CodeMap → CodeMap
  | null, _, m => m
  | node c _ l r, code, m =>
    let m1 := if c ≠ '#' then m.assign c code else m
    let m2 := generateCodes l (code ++ ['0']) m1
    generateCodes r (code ++ ['1']) m2

/-- The pipeline of `main`: build the tree, then generate the codes from the empty path. -/
def huffmanCodes (tie : TieBreak) (S : List Char) (f : List Int) : Except Fault CodeMap :=
  match buildHuffmanTree tie S f with
  | .ok root => .ok (generateCodes root [] [])
  | .error e => .error e

/-! ## Notions used to state the properties -/

/-- The leaf node that step 1 creates for the table entry `(c, w)`. -/
def leafOf (e : Char × Int) : HuffmanNode :=
  node e.1 e.2 null null

/-- The `(symbol, weight)` pairs of the leaves (nodes without children), left to right. -/
def leaves : HuffmanNode → List (Char × Int)
  | null => []
  | node c w l r => if l = null ∧ r = null then [(c, w)] else leaves l ++ leaves r

/-- Number of internal nodes (nodes with at least one child). -/
def internalCount : HuffmanNode → Nat
  | null => 0
  | node _ _ l r => if l = null ∧ r = null then 0 else 1 + internalCount l + internalCount r

/-- Root-to-leaf path of every leaf, bottom-up: a step into a left child is written
`'0'`, a step into a right child `'1'`. -/
def leafPaths : HuffmanNode → List (Char × List Char)
  | null => []
  | node c _ l r =>
    if l = null ∧ r = null then [(c, [])]
    else (leafPaths l).map (fun p => (p.1, '0' :: p.2)) ++
      (leafPaths r).map (fun p => (p.1, '1' :: p.2))

/-- Shape of the trees that the merge loop makes: the weight invariant, and every
internal node carries the placeholder `'#'`. -/
def Merged : HuffmanNode → Prop
  | null => False
  | node c w l r =>
    (l = null ∧ r = null) ∨
      (l ≠ null ∧ r ≠ null ∧ c = '#' ∧ w = l.freq + r.freq ∧ Merged l ∧ Merged r)

/-- The table that the two parallel inputs `S` and `f` describe. -/
def table (S : List Char) (f : List Int) : List (Char × Int) :=
  S.zip f

/-- A valid frequency table: non-empty, one frequency per symbol, unique symbols,
strictly positive frequencies. -/
def ValidTable (S : List Char) (f : List Int) : Prop :=
  S ≠ [] ∧ S.length = f.length ∧ S.Nodup ∧ ∀ w ∈ f, 0 < w

/-- Loop invariant of `buildHuffmanTree` for the table `tbl`. -/
def HeapInv (tbl : List (Char × Int)) (q : MinHeap) : Prop :=
  (∀ t ∈ q, Merged t) ∧ (q.flatMap leaves).Perm tbl

/-- What `generateCodes` does at one leaf with path `p` below a node reached by `code`. -/
def record (code : List Char) (m : CodeMap) (cp : Char × List Char) : CodeMap :=
  if cp.1 ≠ '#' then m.assign cp.1 (code ++ cp.2) else m

/-- Encoding of a symbol sequence: the concatenation of the codes of its symbols;
no result when a symbol has no code (`symbolCodes.at` throws). -/
def encode (m : CodeMap) : List Char → Option (List Char)
  | [] => some []
  | c :: rest =>
    match m.find c, encode m rest with
    | some code, some bits => some (code ++ bits)
    | _, _ => none

/-- The loop of `calculateAndPrintTotalBits` over the indices of `S`, with the two
accumulators `(totalBits, totalFrequency)`.  `f[i]` is read before the lookup; a
symbol without code is skipped (`continue`).  The `long long` accumulators are taken
as exact integers. -/
def totalsLoop (m : CodeMap) : List Char → List Int → Int × Int → Except Fault (Int × Int)
  | [], _, acc => .ok acc
  | _ :: _, [], _ => .error .indexOutOfRange
  | c :: S, w :: f, (totalBits, totalFrequency) =>
    match m.find c with
    | none => totalsLoop m S f (totalBits, totalFrequency)
    | some code => totalsLoop m S f (totalBits + w * (code.length : Int), totalFrequency + w)

/-- The function `calculateAndPrintTotalBits(S, f, symbolCodes)`: the totals
`(totalBits, totalFrequency)` that it prints.  The average is their quotient as a
`double` and is not modelled. -/
def calculateAndPrintTotalBits (S : List Char) (f : List Int) (m : CodeMap) :
    Except Fault (Int × Int) :=
  totalsLoop m S f (0, 0)

/-- Steps 1 to 3 of `main` on the inputs `S` and `f`: build the tree, generate the codes,
compute the totals. -/
def pipelineTotals (tie : TieBreak) (S : List Char) (f : List Int) :
    Except Fault (Int × Int) :=
  match buildHuffmanTree tie S f with
  | .ok root => calculateAndPrintTotalBits S f (generateCodes root [] [])
  | .error e => .error e

/-- The state of the queue after `k` iterations of the loop body of step 2. -/
def mergeSteps (tie : TieBreak) : Nat → MinHeap → Except Fault MinHeap
  | 0, q => .ok q
  | k + 1, q => do
    let q1 ← mergeStep tie q
    mergeSteps tie k q1

/-- Length of the code of `c` in the code table (zero when `c` has no code). -/
def codeLength (m : CodeMap) (c : Char) : Nat :=
  ((m.find c).getD []).length

/-- The table entries whose symbol is present in the code table. -/
def presentEntries (m : CodeMap) (tbl : List (Char × Int)) : List (Char × Int) :=
  tbl.filter (fun e => (m.find e.1).isSome)

/-- Total bits as the claim words it: the sum over the present entries of frequency
times code length. -/
def specTotalBits (m : CodeMap) (tbl : List (Char × Int)) : Int :=
  ((presentEntries m tbl).map (fun e => e.2 * (codeLength m e.1 : Int))).sum

/-- Total symbol count as the claim words it: the sum of the frequencies of the present
entries. -/
def specTotalFrequency (m : CodeMap) (tbl : List (Char × Int)) : Int :=
  ((presentEntries m tbl).map Prod.snd).sum

/-- The leaves with their depth (number of edges from the root), left to right. -/
def leafDepths : HuffmanNode → List ((Char × Int) × Nat)
  | null => []
  | node c w l r =>
    if l = null ∧ r = null then [((c, w), 0)]
    else (leafDepths l ++ leafDepths r).map (fun e => (e.1, e.2 + 1))

/-- Weighted path length: the sum over the leaves of frequency times depth. -/
def weightedPathLength (t : HuffmanNode) : Int :=
  ((leafDepths t).map (fun e => e.1.2 * (e.2 : Int))).sum

/-- Sum of the weights of the internal nodes. -/
def internalWeightSum : HuffmanNode → Int
  | null => 0
  | node _ w l r =>
    if l = null ∧ r = null then 0 else w + internalWeightSum l + internalWeightSum r

/-- Depth multisets of full binary trees: a single leaf at depth 0, or two such trees
under a common root. -/
inductive ValidDepths : Multiset Nat → Prop
  | single : ValidDepths {0}
  | join (A B : Multiset Nat) : ValidDepths A → ValidDepths B →
      ValidDepths (A.map Nat.succ + B.map Nat.succ)

/-- Cost of an assignment of weights to depths: the sum of weight times depth. -/
def pairCost (P : Multiset (Int × Nat)) : Int :=
  (P.map (fun e => e.1 * (e.2 : Int))).sum

/-- The leaves of a tree as an assignment of weights to depths. -/
def weightDepths (t : HuffmanNode) : Multiset (Int × Nat) :=
  ((leafDepths t).map (fun e => (e.1.2, e.2)) : List (Int × Nat))

/-- The symbol string `S` of `main`. -/
def mainS : List Char := ['a', 'b', 'c', 'd', 'e', 'f']

/-- The frequencies `f` of `main`. -/
def mainF : List Int := [5, 9, 12, 13, 16, 45]

/-- The tree that the merges 5+9, 12+13, 14+16, 25+30 and 45+55 make of the table of
`main`. -/
def mainRoot : HuffmanNode :=
  node '#' 100 (leafOf ('f', 45))
    (node '#' 55
      (node '#' 25 (leafOf ('c', 12)) (leafOf ('d', 13)))
      (node '#' 30 (node '#' 14 (leafOf ('a', 5)) (leafOf ('b', 9))) (leafOf ('e', 16))))

/-- The code table read off `mainRoot`. -/
def mainCodes : CodeMap :=
  [('a', ['1', '1', '0', '0']), ('b', ['1', '1', '0', '1']), ('c', ['1', '0', '0']),
    ('d', ['1', '0', '1']), ('e', ['1', '1', '1']), ('f', ['0'])]

/-! ## The build with 32-bit `int` -/

/-- A value wrapped to the 32-bit two's-complement range of `int`. -/
def wrap32 (x : Int) : Int :=
  (x + 2147483648) % 4294967296 - 2147483648

/-- The `int` addition `leftNode->freq + rightNode->freq` as the compiled program
computes it: the sum, wrapped to 32 bits. -/
def intAdd (a b : Int) : Int :=
  wrap32 (a + b)

/-- Body of the loop of step 2 with the weight of the new node computed in `int`. -/
def mergeStep32 (tie : TieBreak) (q : MinHeap) : Except Fault MinHeap := do
  let leftNode ← top tie q
  let q1 ← pop tie q
  let rightNode ← top tie q1
  let q2 ← pop tie q1
  let newNode := node '#' (intAdd leftNode.freq rightNode.freq) leftNode rightNode
  pure (push q2 newNode)

/-- Step 2 of `buildHuffmanTree` with `int` weights. -/
def mergeLoop32 (tie : TieBreak) : Nat → MinHeap → Except Fault MinHeap
  | 0, q => if q.length > 1 then .error .outOfFuel else .ok q
  | fuel + 1, q =>
    if q.length > 1 then do
      let q1 ← mergeStep32 tie q
      mergeLoop32 tie fuel q1
    else .ok q

/-- The function `buildHuffmanTree(S, f)` with `int` weights. -/
def buildHuffmanTree32 (tie : TieBreak) (S : List Char) (f : List Int) :
    Except Fault HuffmanNode := do
  let q0 ← initLeaves S f []
  let q ← mergeLoop32 tie q0.length q0
  top tie q

/-- Steps 1 and 2 of `main` with `int` weights: build the tree, generate the codes. -/
def huffmanCodes32 (tie : TieBreak) (S : List Char) (f : List Int) :
    Except Fault CodeMap :=
  match buildHuffmanTree32 tie S f with
  | .ok root => .ok (generateCodes root [] [])
  | .error e => .error e

/-- Steps 1 to 3 of `main` with `int` weights and `long long` totals. -/
def pipelineTotals32 (tie : TieBreak) (S : List Char) (f : List Int) :
    Except Fault (Int × Int) :=
  match buildHuffmanTree32 tie S f with
  | .ok root => calculateAndPrintTotalBits S f (generateCodes root [] [])
  | .error e => .error e

/-! ## The priority queue -/

theorem topCandidates_subset (q : MinHeap) (x : HuffmanNode) (h : x ∈ topCandidates q) :
    x ∈ q ∧ ∀ y ∈ q, x.freq ≤ y.freq := by
  unfold topCandidates at h
  rw [List.mem_filter, List.all_eq_true] at h
  refine ⟨h.1, fun y hy => ?_⟩
  have := h.2 y hy
  simpa [MinHeapCompare] using this

theorem exists_min_freq (q : MinHeap) (hq : q ≠ []) :
    ∃ x ∈ q, ∀ y ∈ q, x.freq ≤ y.freq := by
  induction q with
  | nil => exact absurd rfl hq
  | cons a q ih =>
    by_cases hq2 : q = []
    · subst hq2
      exact ⟨a, by simp, by simp⟩
    · obtain ⟨x, hx, hmin⟩ := ih hq2
      by_cases hax : a.freq ≤ x.freq
      · refine ⟨a, by simp, ?_⟩
        intro y hy
        rcases List.mem_cons.mp hy with rfl | hy
        · exact le_refl _
        · exact le_trans hax (hmin y hy)
      · refine ⟨x, by simp [hx], ?_⟩
        intro y hy
        rcases List.mem_cons.mp hy with rfl | hy
        · omega
        · exact hmin y hy

theorem topCandidates_ne_nil (q : MinHeap) (hq : q ≠ []) : topCandidates q ≠ [] := by
  obtain ⟨x, hx, hmin⟩ := exists_min_freq q hq
  have hmem : x ∈ topCandidates q := by
    unfold topCandidates
    rw [List.mem_filter, List.all_eq_true]
    refine ⟨hx, fun y hy => ?_⟩
    simpa [MinHeapCompare] using hmin y hy
  exact List.ne_nil_of_mem hmem

theorem top_ok_mem (tie : TieBreak) (q : MinHeap) (x : HuffmanNode)
    (h : top tie q = .ok x) : x ∈ q ∧ ∀ y ∈ q, x.freq ≤ y.freq := by
  unfold top at h
  split at h
  · rename_i y hy
    cases h
    obtain ⟨hlt, hget⟩ := List.getElem?_eq_some.mp hy
    apply topCandidates_subset
    rw [← hget]
    exact List.getElem_mem _
  · cases h

theorem top_total (tie : TieBreak) (q : MinHeap) (hq : q ≠ []) :
    ∃ x, top tie q = .ok x := by
  have hne := topCandidates_ne_nil q hq
  have hpos : 0 < (topCandidates q).length := List.length_pos.mpr hne
  have hlt : tie q % (topCandidates q).length < (topCandidates q).length :=
    Nat.mod_lt _ hpos
  refine ⟨(topCandidates q)[tie q % (topCandidates q).length], ?_⟩
  unfold top
  rw [List.getElem?_eq_getElem hlt]

theorem top_nil (tie : TieBreak) : top tie [] = .error .emptyTop := by
  simp [top, topCandidates]

theorem top_singleton (tie : TieBreak) (r : HuffmanNode) : top tie [r] = .ok r := by
  obtain ⟨x, hx⟩ := top_total tie [r] (by simp)
  have := (top_ok_mem tie [r] x hx).1
  rw [List.mem_singleton] at this
  rw [hx, this]

theorem pop_of_top (tie : TieBreak) (q : MinHeap) (x : HuffmanNode)
    (h : top tie q = .ok x) : pop tie q = .ok (q.erase x) := by
  unfold pop
  rw [h]

/-! ## Tree construction -/

theorem initLeaves_eq (S : List Char) (f : List Int) (q : MinHeap)
    (h : S.length ≤ f.length) :
    initLeaves S f q = .ok (q ++ (table S f).map leafOf) := by
  induction S generalizing f q with
  | nil => simp [initLeaves, table]
  | cons c S ih =>
    cases f with
    | nil => simp at h
    | cons w f =>
      have h2 : S.length ≤ f.length := by simpa using h
      simp only [initLeaves, push]
      rw [ih f _ h2]
      simp [table, leafOf]

theorem initLeaves_short (S : List Char) (f : List Int) (q : MinHeap)
    (h : f.length < S.length) :
    initLeaves S f q = .error .indexOutOfRange := by
  induction S generalizing f q with
  | nil => simp at h
  | cons c S ih =>
    cases f with
    | nil => simp [initLeaves]
    | cons w f =>
      have h2 : f.length < S.length := by simpa using h
      simp only [initLeaves]
      exact ih f _ h2

theorem merged_leafOf (e : Char × Int) : Merged (leafOf e) := by
  simp [leafOf, Merged]

theorem merged_ne_null (t : HuffmanNode) (h : Merged t) : t ≠ null := by
  intro h2
  subst h2
  simp [Merged] at h

theorem leaves_leafOf (e : Char × Int) : leaves (leafOf e) = [e] := by
  simp [leafOf, leaves]

theorem flatMap_leaves_leafOf (tbl : List (Char × Int)) :
    (tbl.map leafOf).flatMap leaves = tbl := by
  induction tbl with
  | nil => rfl
  | cons e tbl ih => simp [List.flatMap_cons, leaves_leafOf, ih]

theorem heapInv_init (tbl : List (Char × Int)) : HeapInv tbl (tbl.map leafOf) := by
  refine ⟨?_, ?_⟩
  · intro t ht
    obtain ⟨e, _, rfl⟩ := List.mem_map.mp ht
    exact merged_leafOf e
  · rw [flatMap_leaves_leafOf]

theorem mergeStep_eq (tie : TieBreak) (q : MinHeap) (h : 1 < q.length) :
    ∃ a b, a ∈ q ∧ b ∈ q.erase a ∧ top tie q = .ok a ∧ top tie (q.erase a) = .ok b ∧
      mergeStep tie q =
        .ok (push ((q.erase a).erase b) (node '#' (a.freq + b.freq) a b)) := by
  have hq : q ≠ [] := by
    intro h0
    subst h0
    simp at h
  obtain ⟨a, ha⟩ := top_total tie q hq
  have hamem := (top_ok_mem tie q a ha).1
  have hlen1 : (q.erase a).length = q.length - 1 := List.length_erase_of_mem hamem
  have hq1 : q.erase a ≠ [] := by
    intro h0
    rw [h0] at hlen1
    simp at hlen1
    omega
  obtain ⟨b, hb⟩ := top_total tie (q.erase a) hq1
  have hbmem := (top_ok_mem tie _ b hb).1
  refine ⟨a, b, hamem, hbmem, ha, hb, ?_⟩
  simp only [mergeStep, ha, pop_of_top tie q a ha, hb, pop_of_top tie _ b hb, bind,
    Except.bind, pure, Except.pure]

theorem heapInv_step (tbl : List (Char × Int)) (q : MinHeap) (a b : HuffmanNode)
    (hinv : HeapInv tbl q) (ha : a ∈ q) (hb : b ∈ q.erase a) :
    HeapInv tbl (push ((q.erase a).erase b) (node '#' (a.freq + b.freq) a b)) := by
  obtain ⟨hm, hp⟩ := hinv
  have hbq : b ∈ q := List.mem_of_mem_erase hb
  have hma := hm a ha
  have hmb := hm b hbq
  have hna := merged_ne_null a hma
  have hnb := merged_ne_null b hmb
  refine ⟨?_, ?_⟩
  · intro t ht
    simp only [push, List.mem_append, List.mem_singleton] at ht
    rcases ht with ht | rfl
    · exact hm t (List.mem_of_mem_erase (List.mem_of_mem_erase ht))
    · unfold Merged
      exact Or.inr ⟨hna, hnb, rfl, rfl, hma, hmb⟩
  · have hperm : q.Perm (a :: b :: (q.erase a).erase b) :=
      (List.perm_cons_erase ha).trans ((List.perm_cons_erase hb).cons a)
    have hnew : leaves (node '#' (a.freq + b.freq) a b) = leaves a ++ leaves b := by
      simp [leaves, hna]
    have h1 : ((push ((q.erase a).erase b) (node '#' (a.freq + b.freq) a b)).flatMap leaves).Perm
        ((a :: b :: (q.erase a).erase b).flatMap leaves) := by
      simp only [push, List.flatMap_append, List.flatMap_cons, List.flatMap_nil,
        List.append_nil, hnew]
      rw [← List.append_assoc (leaves a)]
      exact List.perm_append_comm
    exact h1.trans ((hperm.flatMap_right leaves).symm.trans hp)

theorem length_step (q : MinHeap) (a b x : HuffmanNode) (ha : a ∈ q) (hb : b ∈ q.erase a) :
    (push ((q.erase a).erase b) x).length + 1 = q.length := by
  have h1 : (q.erase a).length = q.length - 1 := List.length_erase_of_mem ha
  have h2 : ((q.erase a).erase b).length = (q.erase a).length - 1 :=
    List.length_erase_of_mem hb
  have h3 : 0 < (q.erase a).length := List.length_pos_of_mem hb
  simp only [push, List.length_append, List.length_singleton]
  omega

theorem mergeLoop_spec (tie : TieBreak) (tbl : List (Char × Int)) :
    ∀ (fuel : Nat) (q : MinHeap), HeapInv tbl q → q ≠ [] → q.length ≤ fuel + 1 →
      ∃ r, mergeLoop tie fuel q = .ok [r] ∧ HeapInv tbl [r] := by
  intro fuel
  induction fuel with
  | zero =>
    intro q hinv hq hlen
    match q, hq, hlen, hinv with
    | [r], _, _, hinv => exact ⟨r, by simp [mergeLoop], hinv⟩
    | _ :: _ :: _, _, hlen, _ => simp at hlen
  | succ fuel ih =>
    intro q hinv hq hlen
    by_cases h1 : 1 < q.length
    · obtain ⟨a, b, ha, hb, _, _, hstep⟩ := mergeStep_eq tie q h1
      have hinv2 := heapInv_step tbl q a b hinv ha hb
      have hlen2 := length_step q a b (node '#' (a.freq + b.freq) a b) ha hb
      have hne : push ((q.erase a).erase b) (node '#' (a.freq + b.freq) a b) ≠ [] := by
        simp [push]
      obtain ⟨r, hr, hinvr⟩ := ih _ hinv2 hne (by omega)
      refine ⟨r, ?_, hinvr⟩
      simp only [mergeLoop, h1, if_true, hstep, bind, Except.bind]
      exact hr
    · match q, hq, h1, hinv with
      | [r], _, _, hinv => exact ⟨r, by simp [mergeLoop], hinv⟩
      | _ :: _ :: _, _, h1, _ => simp at h1

/-- Main lemma on `buildHuffmanTree`: on a non-empty table with a frequency for every
symbol it returns a tree of merged shape whose leaves are the table entries. -/
theorem build_spec (tie : TieBreak) (S : List Char) (f : List Int)
    (hne : S ≠ []) (hlen : S.length ≤ f.length) :
    ∃ t, buildHuffmanTree tie S f = .ok t ∧ Merged t ∧ (leaves t).Perm (table S f) := by
  have hinit := initLeaves_eq S f [] hlen
  rw [List.nil_append] at hinit
  have hinv := heapInv_init (table S f)
  have hq : (table S f).map leafOf ≠ [] := by
    cases S with
    | nil => exact absurd rfl hne
    | cons c S =>
      cases f with
      | nil => simp at hlen
      | cons w f => simp [table]
  obtain ⟨r, hr, hinvr⟩ := mergeLoop_spec tie (table S f) _ _ hinv hq (Nat.le_succ _)
  refine ⟨r, ?_, hinvr.1 r (by simp), ?_⟩
  · simp only [buildHuffmanTree, hinit, hr, bind, Except.bind]
    exact top_singleton tie r
  · simpa using hinvr.2

/-! ## The code map -/

theorem find_assign (m : CodeMap) (k : Char) (v : List Char) (k2 : Char) :
    (m.assign k v).find k2 = if k = k2 then some v else m.find k2 := by
  induction m with
  | nil => simp [CodeMap.assign, CodeMap.find]
  | cons e m ih =>
    obtain ⟨k1, v1⟩ := e
    unfold CodeMap.assign
    by_cases h1 : k1 = k
    · subst h1
      simp only [if_true, CodeMap.find]
      by_cases h3 : k1 = k2 <;> simp [h3]
    · simp only [h1, if_false]
      by_cases h2 : k < k1
      · simp only [h2, if_true, CodeMap.find]
      · simp only [h2, if_false]
        rw [CodeMap.find, ih, CodeMap.find]
        by_cases h3 : k1 = k2
        · have h4 : ¬ k = k2 := fun h => h1 (h3.trans h.symm)
          simp [h3, h4]
        · simp [h3]

theorem mem_keys_assign (m : CodeMap) (k : Char) (v : List Char) (x : Char) :
    x ∈ (m.assign k v).keys ↔ x = k ∨ x ∈ m.keys := by
  induction m with
  | nil => simp [CodeMap.assign, CodeMap.keys]
  | cons e m ih =>
    obtain ⟨k1, v1⟩ := e
    unfold CodeMap.assign
    by_cases h1 : k1 = k
    · subst h1
      simp [CodeMap.keys]
    · simp only [h1, if_false]
      by_cases h2 : k < k1
      · simp [h2, CodeMap.keys]
      · simp only [h2, if_false]
        simp only [CodeMap.keys, List.map_cons, List.mem_cons] at ih ⊢
        rw [ih]
        tauto

theorem keys_sorted_assign (m : CodeMap) (k : Char) (v : List Char)
    (h : m.keys.Pairwise (fun a b => a < b)) :
    (m.assign k v).keys.Pairwise (fun a b => a < b) := by
  induction m with
  | nil => simp [CodeMap.assign, CodeMap.keys]
  | cons e m ih =>
    obtain ⟨k1, v1⟩ := e
    have hk : CodeMap.keys ((k1, v1) :: m) = k1 :: CodeMap.keys m := rfl
    rw [hk, List.pairwise_cons] at h
    unfold CodeMap.assign
    by_cases h1 : k1 = k
    · subst h1
      simp only [if_true]
      have hk2 : CodeMap.keys ((k1, v) :: m) = k1 :: CodeMap.keys m := rfl
      rw [hk2, List.pairwise_cons]
      exact h
    · simp only [h1, if_false]
      by_cases h2 : k < k1
      · simp only [h2, if_true]
        have hk2 : CodeMap.keys ((k, v) :: (k1, v1) :: m) = k :: k1 :: CodeMap.keys m := rfl
        rw [hk2, List.pairwise_cons, List.pairwise_cons]
        refine ⟨?_, h⟩
        intro x hx
        rcases List.mem_cons.mp hx with rfl | hx
        · exact h2
        · exact lt_trans h2 (h.1 x hx)
      · simp only [h2, if_false]
        have hk2 : CodeMap.keys ((k1, v1) :: CodeMap.assign m k v) =
            k1 :: CodeMap.keys (CodeMap.assign m k v) := rfl
        rw [hk2, List.pairwise_cons]
        refine ⟨?_, ih h.2⟩
        intro x hx
        rcases (mem_keys_assign m k v x).mp hx with rfl | hx
        · exact lt_of_le_of_ne (not_lt.mp h2) h1
        · exact h.1 x hx

theorem find_isSome_iff (m : CodeMap) (k : Char) : (m.find k).isSome ↔ k ∈ m.keys := by
  induction m with
  | nil => simp [CodeMap.find, CodeMap.keys]
  | cons e m ih =>
    obtain ⟨k1, v1⟩ := e
    unfold CodeMap.find
    by_cases h1 : k1 = k
    · simp [h1, CodeMap.keys]
    · simp only [h1, if_false, ih]
      have h2 : ¬ k = k1 := fun h => h1 h.symm
      simp [CodeMap.keys, h2]

theorem find_record (code : List Char) (m : CodeMap) (cp : Char × List Char) (k : Char) :
    (record code m cp).find k =
      if cp.1 ≠ '#' ∧ cp.1 = k then some (code ++ cp.2) else m.find k := by
  unfold record
  by_cases h : cp.1 ≠ '#'
  · simp only [h, if_true, find_assign, true_and, not_false_eq_true, ne_eq]
  · simp only [h, if_false, false_and]

theorem find_foldl_not_mem (L : List (Char × List Char)) (code : List Char) (m : CodeMap)
    (k : Char) (h : k ∉ L.map Prod.fst) :
    (L.foldl (record code) m).find k = m.find k := by
  induction L generalizing m with
  | nil => rfl
  | cons e L ih =>
    simp only [List.map_cons, List.mem_cons, not_or] at h
    rw [List.foldl_cons, ih _ h.2, find_record]
    have h2 : ¬ (e.1 ≠ '#' ∧ e.1 = k) := fun hh => h.1 hh.2.symm
    simp only [h2, if_false]

theorem find_foldl_of_mem (L : List (Char × List Char)) (code : List Char) (m : CodeMap)
    (k : Char) (p : List Char) (hnd : (L.map Prod.fst).Nodup) (hmem : (k, p) ∈ L)
    (hk : k ≠ '#') : (L.foldl (record code) m).find k = some (code ++ p) := by
  induction L generalizing m with
  | nil => simp at hmem
  | cons e L ih =>
    rw [List.map_cons, List.nodup_cons] at hnd
    rw [List.foldl_cons]
    rcases List.mem_cons.mp hmem with rfl | hmem
    · rw [find_foldl_not_mem L code _ k hnd.1, find_record]
      simp [hk]
    · exact ih _ hnd.2 hmem

theorem find_foldl_some (L : List (Char × List Char)) (code : List Char) (m : CodeMap)
    (k : Char) (v : List Char) (h : (L.foldl (record code) m).find k = some v) :
    m.find k = some v ∨ ∃ p, (k, p) ∈ L ∧ k ≠ '#' ∧ v = code ++ p := by
  induction L generalizing m with
  | nil => exact Or.inl h
  | cons e L ih =>
    rw [List.foldl_cons] at h
    rcases ih _ h with h1 | ⟨p, hp, hk, hv⟩
    · rw [find_record] at h1
      by_cases hc : e.1 ≠ '#' ∧ e.1 = k
      · rw [if_pos hc, Option.some.injEq] at h1
        refine Or.inr ⟨e.2, ?_, ?_, h1.symm⟩
        · rw [← hc.2]
          exact List.mem_cons_self _ _
        · rw [← hc.2]
          exact hc.1
      · rw [if_neg hc] at h1
        exact Or.inl h1
    · exact Or.inr ⟨p, List.mem_cons_of_mem _ hp, hk, hv⟩

theorem keys_sorted_foldl (L : List (Char × List Char)) (code : List Char) (m : CodeMap)
    (h : m.keys.Pairwise (fun a b => a < b)) :
    (L.foldl (record code) m).keys.Pairwise (fun a b => a < b) := by
  induction L generalizing m with
  | nil => exact h
  | cons e L ih =>
    rw [List.foldl_cons]
    apply ih
    unfold record
    split
    · exact keys_sorted_assign _ _ _ h
    · exact h

theorem mem_keys_foldl (L : List (Char × List Char)) (code : List Char) (m : CodeMap)
    (x : Char) :
    x ∈ (L.foldl (record code) m).keys ↔ x ∈ m.keys ∨ (x ≠ '#' ∧ x ∈ L.map Prod.fst) := by
  induction L generalizing m with
  | nil => simp
  | cons e L ih =>
    rw [List.foldl_cons, ih]
    unfold record
    by_cases hc : e.1 ≠ '#'
    · rw [if_pos hc]
      simp only [mem_keys_assign, List.map_cons, List.mem_cons]
      constructor
      · rintro ((rfl | h) | ⟨h1, h2⟩)
        · exact Or.inr ⟨hc, Or.inl rfl⟩
        · exact Or.inl h
        · exact Or.inr ⟨h1, Or.inr h2⟩
      · rintro (h | ⟨h1, rfl | h2⟩)
        · exact Or.inl (Or.inr h)
        · exact Or.inl (Or.inl rfl)
        · exact Or.inr ⟨h1, h2⟩
    · rw [if_neg hc]
      simp only [List.map_cons, List.mem_cons]
      constructor
      · rintro (h | ⟨h1, h2⟩)
        · exact Or.inl h
        · exact Or.inr ⟨h1, Or.inr h2⟩
      · rintro (h | ⟨h1, rfl | h2⟩)
        · exact Or.inl h
        · exact absurd h1 hc
        · exact Or.inr ⟨h1, h2⟩

/-! ## Code generation -/

theorem foldl_record_step (code : List Char) (d : Char) (L : List (Char × List Char))
    (m : CodeMap) :
    (L.map (fun p => (p.1, d :: p.2))).foldl (record code) m =
      L.foldl (record (code ++ [d])) m := by
  induction L generalizing m with
  | nil => rfl
  | cons e L ih =>
    rw [List.map_cons, List.foldl_cons, List.foldl_cons, ih]
    simp [record]

theorem generateCodes_eq_foldl (t : HuffmanNode) (ht : Merged t) (code : List Char)
    (m : CodeMap) : generateCodes t code m = (leafPaths t).foldl (record code) m := by
  induction t generalizing code m with
  | null => simp [Merged] at ht
  | node c w l r ihl ihr =>
    unfold Merged at ht
    rcases ht with ⟨hl, hr⟩ | ⟨hl, hr, hc, _, hml, hmr⟩
    · subst hl
      subst hr
      simp [generateCodes, leafPaths, record]
    · have hnl : ¬ (l = null ∧ r = null) := fun h => hl h.1
      subst hc
      simp only [generateCodes, leafPaths, hnl, if_false, List.foldl_append,
        foldl_record_step, ne_eq, not_true_eq_false]
      rw [ihl hml, ihr hmr]

theorem leafPaths_fst (t : HuffmanNode) :
    (leafPaths t).map Prod.fst = (leaves t).map Prod.fst := by
  induction t with
  | null => rfl
  | node c w l r ihl ihr =>
    by_cases h : l = null ∧ r = null
    · simp [leafPaths, leaves, h]
    · simp only [leafPaths, leaves, h, if_false, List.map_append, List.map_map, ← ihl, ← ihr]
      rfl

theorem leafPaths_prefix_eq (t : HuffmanNode) (a b : Char × List Char)
    (ha : a ∈ leafPaths t) (hb : b ∈ leafPaths t) (hpre : a.2 <+: b.2) : a = b := by
  induction t generalizing a b with
  | null => simp [leafPaths] at ha
  | node c w l r ihl ihr =>
    by_cases h : l = null ∧ r = null
    · simp only [leafPaths, h, and_self, if_true, List.mem_singleton] at ha hb
      rw [ha, hb]
    · simp only [leafPaths, h, if_false, List.mem_append, List.mem_map] at ha hb
      rcases ha with ⟨a1, ha1, rfl⟩ | ⟨a1, ha1, rfl⟩ <;>
        rcases hb with ⟨b1, hb1, rfl⟩ | ⟨b1, hb1, rfl⟩
      · have hp : a1.2 <+: b1.2 := (List.prefix_cons_inj _).mp hpre
        rw [ihl a1 b1 ha1 hb1 hp]
      · have := (List.cons_prefix_cons.mp hpre).1
        exact absurd this (by decide)
      · have := (List.cons_prefix_cons.mp hpre).1
        exact absurd this (by decide)
      · have hp : a1.2 <+: b1.2 := (List.prefix_cons_inj _).mp hpre
        rw [ihr a1 b1 ha1 hb1 hp]

theorem leafPaths_ne_nil (c : Char) (w : Int) (l r : HuffmanNode)
    (h : ¬ (l = null ∧ r = null)) (e : Char × List Char)
    (he : e ∈ leafPaths (node c w l r)) : e.2 ≠ [] := by
  simp only [leafPaths, h, if_false, List.mem_append, List.mem_map] at he
  rcases he with ⟨a, _, rfl⟩ | ⟨a, _, rfl⟩ <;> simp

theorem freq_eq_sum_leaves (t : HuffmanNode) (ht : Merged t) :
    t.freq = ((leaves t).map Prod.snd).sum := by
  induction t with
  | null => simp [Merged] at ht
  | node c w l r ihl ihr =>
    unfold Merged at ht
    rcases ht with ⟨hl, hr⟩ | ⟨hl, _, _, hw, hml, hmr⟩
    · simp [leaves, hl, hr, HuffmanNode.freq]
    · have hnl : ¬ (l = null ∧ r = null) := fun h => hl h.1
      simp only [leaves, hnl, if_false, List.map_append, List.sum_append, HuffmanNode.freq]
      rw [hw, ihl hml, ihr hmr]

theorem encode_cons_some (m : CodeMap) (c : Char) (rest bits : List Char)
    (h : encode m (c :: rest) = some bits) :
    ∃ v b, m.find c = some v ∧ encode m rest = some b ∧ bits = v ++ b := by
  unfold encode at h
  split at h
  · rename_i v b hv hb
    exact ⟨v, b, hv, hb, by simpa using h.symm⟩
  · cases h

theorem encode_injective (m : CodeMap)
    (hne : ∀ c v, m.find c = some v → v ≠ [])
    (hpf : ∀ a b va vb, m.find a = some va → m.find b = some vb → va <+: vb → a = b)
    (m1 m2 bits : List Char) (h1 : encode m m1 = some bits) (h2 : encode m m2 = some bits) :
    m1 = m2 := by
  induction m1 generalizing m2 bits with
  | nil =>
    cases m2 with
    | nil => rfl
    | cons b r2 =>
      obtain ⟨vb, b2, hvb, _, hbits⟩ := encode_cons_some m b r2 bits h2
      have : bits = [] := by simpa [encode] using h1.symm
      rw [this] at hbits
      have hnil : vb = [] := (List.append_eq_nil.mp hbits.symm).1
      exact absurd hnil (hne b vb hvb)
  | cons a r1 ih =>
    obtain ⟨va, b1, hva, hr1, hbits1⟩ := encode_cons_some m a r1 bits h1
    cases m2 with
    | nil =>
      have : bits = [] := by simpa [encode] using h2.symm
      rw [this] at hbits1
      have hnil : va = [] := (List.append_eq_nil.mp hbits1.symm).1
      exact absurd hnil (hne a va hva)
    | cons b r2 =>
      obtain ⟨vb, b2, hvb, hr2, hbits2⟩ := encode_cons_some m b r2 bits h2
      have heq : va ++ b1 = vb ++ b2 := hbits1.symm.trans hbits2
      have hab : a = b := by
        rcases List.append_eq_append_iff.mp heq with ⟨x, hx, _⟩ | ⟨x, hx, _⟩
        · exact hpf a b va vb hva hvb ⟨x, hx.symm⟩
        · exact (hpf b a vb va hvb hva ⟨x, hx.symm⟩).symm
      subst hab
      have hv : va = vb := Option.some.inj (hva.symm.trans hvb)
      subst hv
      have hb : b1 = b2 := List.append_cancel_left heq
      subst hb
      rw [ih r2 b1 hr1 hr2]

/-! ## The pipeline -/

theorem build_nil (tie : TieBreak) (f : List Int) :
    buildHuffmanTree tie [] f = .error .emptyTop := by
  simp only [buildHuffmanTree, initLeaves, bind, Except.bind, List.length_nil, mergeLoop,
    gt_iff_lt, Nat.not_lt_zero, if_false, Nat.lt_irrefl]
  exact top_nil tie

theorem build_ok_spec (tie : TieBreak) (S : List Char) (f : List Int) (t : HuffmanNode)
    (h : buildHuffmanTree tie S f = .ok t) :
    S ≠ [] ∧ S.length ≤ f.length ∧ Merged t ∧ (leaves t).Perm (table S f) := by
  have hne : S ≠ [] := by
    intro h0
    subst h0
    rw [build_nil] at h
    cases h
  have hlen : S.length ≤ f.length := by
    by_contra hc
    have := initLeaves_short S f [] (not_le.mp hc)
    simp only [buildHuffmanTree, this, bind, Except.bind] at h
    cases h
  obtain ⟨t2, ht2, hm, hp⟩ := build_spec tie S f hne hlen
  rw [ht2] at h
  cases h
  exact ⟨hne, hlen, hm, hp⟩

theorem symbols_perm (S : List Char) (f : List Int) (t : HuffmanNode)
    (hlen : S.length ≤ f.length) (hp : (leaves t).Perm (table S f)) :
    ((leafPaths t).map Prod.fst).Perm S := by
  rw [leafPaths_fst]
  have := hp.map Prod.fst
  rwa [table, List.map_fst_zip S f hlen] at this

theorem codes_find_some (t : HuffmanNode) (ht : Merged t) (c : Char) (v : List Char)
    (h : (generateCodes t [] []).find c = some v) : (c, v) ∈ leafPaths t ∧ c ≠ '#' := by
  rw [generateCodes_eq_foldl t ht] at h
  rcases find_foldl_some _ _ _ _ _ h with h1 | ⟨p, hp, hc, hv⟩
  · simp [CodeMap.find] at h1
  · rw [List.nil_append] at hv
    subst hv
    exact ⟨hp, hc⟩

theorem codes_find_of_mem (t : HuffmanNode) (ht : Merged t)
    (hnd : ((leafPaths t).map Prod.fst).Nodup) (c : Char) (p : List Char)
    (hmem : (c, p) ∈ leafPaths t) (hc : c ≠ '#') :
    (generateCodes t [] []).find c = some p := by
  rw [generateCodes_eq_foldl t ht, find_foldl_of_mem _ _ _ c p hnd hmem hc, List.nil_append]

theorem codes_keys (t : HuffmanNode) (ht : Merged t) :
    (generateCodes t [] []).keys.Nodup ∧
      ∀ x, x ∈ (generateCodes t [] []).keys ↔ x ∈ (leafPaths t).map Prod.fst ∧ x ≠ '#' := by
  rw [generateCodes_eq_foldl t ht]
  refine ⟨?_, ?_⟩
  · have hs := keys_sorted_foldl (leafPaths t) [] [] (by simp [CodeMap.keys])
    exact hs.imp (fun hab => ne_of_lt hab)
  · intro x
    rw [mem_keys_foldl]
    simp only [CodeMap.keys, List.map_nil, List.not_mem_nil, false_or]
    tauto

theorem huffmanCodes_ok (tie : TieBreak) (S : List Char) (f : List Int) (t : HuffmanNode)
    (h : buildHuffmanTree tie S f = .ok t) :
    huffmanCodes tie S f = .ok (generateCodes t [] []) := by
  simp only [huffmanCodes, h]

theorem paths_ne_nil_of_two (t : HuffmanNode) (hlv : 2 ≤ (leaves t).length)
    (e : Char × List Char) (he : e ∈ leafPaths t) : e.2 ≠ [] := by
  cases t with
  | null => simp [leafPaths] at he
  | node c w l r =>
    by_cases h : l = null ∧ r = null
    · simp [leaves, h] at hlv
    · exact leafPaths_ne_nil c w l r h e he

/-! ## The claims -/

/-- Claim C1: for every valid frequency table, the pipeline returns a code table in which
the code of one symbol is never a prefix of the code of a different symbol; in
particular distinct symbols have distinct codes. -/
theorem codes_prefix_free (tie : TieBreak) (S : List Char) (f : List Int)
    (hv : ValidTable S f) :
    ∃ m, huffmanCodes tie S f = .ok m ∧
      ∀ a b ca cb, a ≠ b → m.find a = some ca → m.find b = some cb →
        ¬ ca <+: cb ∧ ca ≠ cb := by
  obtain ⟨t, ht, hm, _⟩ := build_spec tie S f hv.1 (le_of_eq hv.2.1)
  refine ⟨_, huffmanCodes_ok tie S f t ht, ?_⟩
  intro a b ca cb hab ha hb
  have h1 := (codes_find_some t hm a ca ha).1
  have h2 := (codes_find_some t hm b cb hb).1
  have hnp : ¬ ca <+: cb := by
    intro hpre
    have := leafPaths_prefix_eq t (a, ca) (b, cb) h1 h2 hpre
    exact hab (congrArg Prod.fst this)
  exact ⟨hnp, fun heq => hnp (heq ▸ List.prefix_refl ca)⟩

/-- Witness of claim C1 on a three-symbol table. -/
theorem codes_prefix_free_witness :
    ValidTable ['a', 'b', 'c'] [5, 9, 12] ∧
    ∃ m, huffmanCodes (fun _ => 0) ['a', 'b', 'c'] [5, 9, 12] = .ok m ∧
      ∀ a b ca cb, a ≠ b → m.find a = some ca → m.find b = some cb →
        ¬ ca <+: cb ∧ ca ≠ cb :=
  ⟨by unfold ValidTable; decide,
    codes_prefix_free (fun _ => 0) ['a', 'b', 'c'] [5, 9, 12] (by unfold ValidTable; decide)⟩

/-- Claim C2, counterexample: the table with the symbols `'#'` and `'a'` is valid, yet the
code table has a single entry, for `'a'`; the input symbol `'#'` is not a key. -/
theorem codes_keys_counterexample :
    ValidTable ['#', 'a'] [7, 2] ∧
    huffmanCodes (fun _ => 0) ['#', 'a'] [7, 2] = .ok [('a', ['0'])] ∧
    '#' ∈ ['#', 'a'] ∧ '#' ∉ CodeMap.keys [('a', ['0'])] :=
  ⟨by unfold ValidTable; decide, by rfl, by decide, by decide⟩

/-- Claim C2, amended: for every valid frequency table, the code table holds each key
once, and its keys are exactly the input symbols other than the placeholder `'#'`. -/
theorem codes_keys_exact (tie : TieBreak) (S : List Char) (f : List Int)
    (hv : ValidTable S f) :
    ∃ m, huffmanCodes tie S f = .ok m ∧ m.keys.Nodup ∧
      ∀ c, c ∈ m.keys ↔ c ∈ S ∧ c ≠ '#' := by
  obtain ⟨t, ht, hm, hp⟩ := build_spec tie S f hv.1 (le_of_eq hv.2.1)
  have hk := codes_keys t hm
  refine ⟨_, huffmanCodes_ok tie S f t ht, hk.1, ?_⟩
  intro c
  rw [hk.2 c, (symbols_perm S f t (le_of_eq hv.2.1) hp).mem_iff]

/-- Witness of the amended claim C2 on a table that contains `'#'`. -/
theorem codes_keys_exact_witness :
    ValidTable ['#', 'a', 'b'] [7, 2, 4] ∧
    ∃ m, huffmanCodes (fun _ => 0) ['#', 'a', 'b'] [7, 2, 4] = .ok m ∧ m.keys.Nodup ∧
      ∀ c, c ∈ m.keys ↔ c ∈ ['#', 'a', 'b'] ∧ c ≠ '#' :=
  ⟨by unfold ValidTable; decide,
    codes_keys_exact (fun _ => 0) ['#', 'a', 'b'] [7, 2, 4] (by unfold ValidTable; decide)⟩

/-- Claim C3: for every non-empty table, the tree returned by buildHuffmanTree has the
table entries as its leaves (one leaf per entry, with that entry's symbol and
frequency), the leaf weights sum to the sum of the frequencies, and so does the
weight of the root. -/
theorem tree_leaves_and_weight (tie : TieBreak) (S : List Char) (f : List Int)
    (hne : S ≠ []) (hlen : S.length = f.length) :
    ∃ t, buildHuffmanTree tie S f = .ok t ∧ (leaves t).Perm (table S f) ∧
      ((leaves t).map Prod.snd).sum = f.sum ∧ t.freq = f.sum := by
  obtain ⟨t, ht, hm, hp⟩ := build_spec tie S f hne (le_of_eq hlen)
  have hsum : ((leaves t).map Prod.snd).sum = f.sum := by
    rw [(hp.map Prod.snd).sum_eq, table, List.map_snd_zip S f (le_of_eq hlen.symm)]
  exact ⟨t, ht, hp, hsum, (freq_eq_sum_leaves t hm).trans hsum⟩

/-- Witness of claim C3 on a three-entry table. -/
theorem tree_leaves_and_weight_witness :
    (['a', 'b', 'c'] : List Char) ≠ [] ∧
    (['a', 'b', 'c'] : List Char).length = ([5, 9, 12] : List Int).length ∧
    ∃ t, buildHuffmanTree (fun _ => 0) ['a', 'b', 'c'] [5, 9, 12] = .ok t ∧
      (leaves t).Perm (table ['a', 'b', 'c'] [5, 9, 12]) ∧
      ((leaves t).map Prod.snd).sum = ([5, 9, 12] : List Int).sum ∧
      t.freq = ([5, 9, 12] : List Int).sum :=
  ⟨by decide, by decide,
    tree_leaves_and_weight (fun _ => 0) ['a', 'b', 'c'] [5, 9, 12] (by decide) (by decide)⟩

/-- Claim C4: in a tree that buildHuffmanTree built from a table whose symbols are
distinct and different from `'#'`, generateCodes started at the root with the empty
path maps the symbol of every leaf to the root-to-leaf path of that leaf. -/
theorem codes_are_paths (tie : TieBreak) (S : List Char) (f : List Int) (t : HuffmanNode)
    (hb : buildHuffmanTree tie S f = .ok t) (hnd : S.Nodup) (hh : '#' ∉ S) :
    ∀ c p, (c, p) ∈ leafPaths t → (generateCodes t [] []).find c = some p := by
  obtain ⟨_, hlen, hm, hp⟩ := build_ok_spec tie S f t hb
  have hsym := symbols_perm S f t hlen hp
  intro c p hcp
  have hc : c ∈ S := hsym.mem_iff.mp (List.mem_map.mpr ⟨(c, p), hcp, rfl⟩)
  have hne : c ≠ '#' := fun h => hh (h ▸ hc)
  exact codes_find_of_mem t hm (hsym.nodup_iff.mpr hnd) c p hcp hne

/-- Witness of claim C4 on a three-entry table. -/
theorem codes_are_paths_witness :
    buildHuffmanTree (fun _ => 0) ['a', 'b', 'c'] [5, 9, 12] =
      .ok (node '#' 26 (node 'c' 12 null null)
        (node '#' 14 (node 'a' 5 null null) (node 'b' 9 null null))) ∧
    (['a', 'b', 'c'] : List Char).Nodup ∧ '#' ∉ (['a', 'b', 'c'] : List Char) ∧
    ∀ c p, (c, p) ∈ leafPaths (node '#' 26 (node 'c' 12 null null)
        (node '#' 14 (node 'a' 5 null null) (node 'b' 9 null null))) →
      (generateCodes (node '#' 26 (node 'c' 12 null null)
        (node '#' 14 (node 'a' 5 null null) (node 'b' 9 null null))) [] []).find c = some p :=
  ⟨rfl, by decide, by decide,
    codes_are_paths (fun _ => 0) ['a', 'b', 'c'] [5, 9, 12] _ rfl (by decide) (by decide)⟩

/-- Claim C5, counterexample: on the valid single-symbol table `x` with frequency 7 the
code table is `x ↦ ""`; the code of `x` is the empty string. -/
theorem single_symbol_counterexample :
    ValidTable ['x'] [7] ∧
    huffmanCodes (fun _ => 0) ['x'] [7] = .ok [('x', [])] ∧
    CodeMap.find [('x', [])] 'x' = some [] :=
  ⟨by unfold ValidTable; decide, by rfl, by rfl⟩

/-- Claim C5, amended: on a single-symbol table whose symbol is not `'#'` no merge takes
place; the tree is the lone leaf and the code of the symbol is the empty string. -/
theorem single_symbol_code_empty (tie : TieBreak) (c : Char) (w : Int) (hc : c ≠ '#') :
    buildHuffmanTree tie [c] [w] = .ok (node c w null null) ∧
    huffmanCodes tie [c] [w] = .ok [(c, [])] := by
  have hb : buildHuffmanTree tie [c] [w] = .ok (node c w null null) := by
    simp only [buildHuffmanTree, initLeaves, push, List.nil_append, bind, Except.bind,
      List.length_singleton, mergeLoop, gt_iff_lt, Nat.lt_irrefl, if_false]
    exact top_singleton tie _
  refine ⟨hb, ?_⟩
  rw [huffmanCodes_ok tie [c] [w] _ hb]
  simp [generateCodes, hc, CodeMap.assign]

/-- Witness of the amended claim C5 on the table `x` with frequency 7. -/
theorem single_symbol_code_empty_witness :
    'x' ≠ '#' ∧
    buildHuffmanTree (fun _ => 0) ['x'] [7] = .ok (node 'x' 7 null null) ∧
    huffmanCodes (fun _ => 0) ['x'] [7] = .ok [('x', [])] :=
  ⟨by decide, single_symbol_code_empty (fun _ => 0) 'x' 7 (by decide)⟩

/-- Claim C6: for every valid frequency table with at least two entries the codes decode
unambiguously: two symbol sequences with the same encoding (the concatenation of the
codes of their symbols) are equal. -/
theorem codes_uniquely_decodable (tie : TieBreak) (S : List Char) (f : List Int)
    (hv : ValidTable S f) (h2 : 2 ≤ S.length) :
    ∃ m, huffmanCodes tie S f = .ok m ∧
      ∀ m1 m2 bits, encode m m1 = some bits → encode m m2 = some bits → m1 = m2 := by
  obtain ⟨t, ht, hm, hp⟩ := build_spec tie S f hv.1 (le_of_eq hv.2.1)
  have hlv : 2 ≤ (leaves t).length := by
    rw [hp.length_eq, table, List.length_zip, ← hv.2.1]
    simpa using h2
  refine ⟨_, huffmanCodes_ok tie S f t ht, ?_⟩
  apply encode_injective
  · intro c v hcv
    exact paths_ne_nil_of_two t hlv (c, v) (codes_find_some t hm c v hcv).1
  · intro a b va vb ha hb hpre
    have := leafPaths_prefix_eq t (a, va) (b, vb) (codes_find_some t hm a va ha).1
      (codes_find_some t hm b vb hb).1 hpre
    exact congrArg Prod.fst this

/-- Witness of claim C6 on a three-symbol table. -/
theorem codes_uniquely_decodable_witness :
    ValidTable ['a', 'b', 'c'] [5, 9, 12] ∧ 2 ≤ ['a', 'b', 'c'].length ∧
    ∃ m, huffmanCodes (fun _ => 0) ['a', 'b', 'c'] [5, 9, 12] = .ok m ∧
      ∀ m1 m2 bits, encode m m1 = some bits → encode m m2 = some bits → m1 = m2 :=
  ⟨by unfold ValidTable; decide, by decide,
    codes_uniquely_decodable (fun _ => 0) ['a', 'b', 'c'] [5, 9, 12]
      (by unfold ValidTable; decide) (by decide)⟩

/-- Claim C7, counterexample: on the empty table the code raises no error. Step 1 leaves
the queue empty, the loop returns it as it is, and the function ends with the read of
the top of the empty queue, which C++ leaves undefined; the mark `emptyTop` stands for
that undefined read, not for an error that the program reports. -/
theorem build_empty_counterexample :
    initLeaves [] [] [] = .ok [] ∧ mergeLoop (fun _ => 0) 0 [] = .ok [] ∧
    buildHuffmanTree (fun _ => 0) [] [] = top (fun _ => 0) [] ∧
    top (fun _ => 0) [] = .error Fault.emptyTop :=
  ⟨rfl, rfl, rfl, rfl⟩

/-- Claim C7, amended: buildHuffmanTree has no emptiness check and raises no input
error. For the empty symbol string step 1 inserts no leaf, the loop is skipped, and
what the function returns is the read of the top of the empty queue, which C++ leaves
undefined. -/
theorem build_empty_unchecked (tie : TieBreak) (f : List Int) :
    initLeaves [] f [] = .ok [] ∧ mergeLoop tie 0 [] = .ok [] ∧
    buildHuffmanTree tie [] f = top tie [] ∧ top tie [] = .error Fault.emptyTop := by
  refine ⟨rfl, rfl, ?_, top_nil tie⟩
  rw [build_nil tie f, top_nil]

/-- Claim C8, counterexample: with the frequencies 0 and -3 buildHuffmanTree returns a
tree; nothing is rejected. -/
theorem nonpositive_frequency_counterexample :
    (∃ w ∈ ([0, -3] : List Int), w ≤ 0) ∧
    buildHuffmanTree (fun _ => 0) ['a', 'b'] [0, -3] =
      .ok (node '#' (-3) (node 'b' (-3) null null) (node 'a' 0 null null)) :=
  ⟨⟨0, by decide, by decide⟩, by rfl⟩

/-- Claim C8, amended: buildHuffmanTree does not check the frequencies. On a non-empty
table with a non-positive frequency it still returns a tree; every table entry, the
non-positive ones included, is a leaf of that tree with its symbol and its frequency
unchanged. -/
theorem nonpositive_frequency_builds (tie : TieBreak) (S : List Char) (f : List Int)
    (hne : S ≠ []) (hlen : S.length = f.length) (hw : ∃ w ∈ f, w ≤ 0) :
    ∃ t, buildHuffmanTree tie S f = .ok t ∧ (leaves t).Perm (table S f) ∧
      ∃ e ∈ table S f, e.2 ≤ 0 ∧ e ∈ leaves t := by
  obtain ⟨t, ht, _, hp⟩ := build_spec tie S f hne (le_of_eq hlen)
  obtain ⟨w, hwf, hw0⟩ := hw
  rw [← List.map_snd_zip S f (le_of_eq hlen.symm)] at hwf
  obtain ⟨e, he, rfl⟩ := List.mem_map.mp hwf
  exact ⟨t, ht, hp, e, he, hw0, hp.mem_iff.mpr he⟩

/-- Witness of the amended claim C8 on the table `a ↦ 0`, `b ↦ -3`. -/
theorem nonpositive_frequency_builds_witness :
    (['a', 'b'] : List Char) ≠ [] ∧
    (['a', 'b'] : List Char).length = ([0, -3] : List Int).length ∧
    (∃ w ∈ ([0, -3] : List Int), w ≤ 0) ∧
    ∃ t, buildHuffmanTree (fun _ => 0) ['a', 'b'] [0, -3] = .ok t ∧
      (leaves t).Perm (table ['a', 'b'] [0, -3]) ∧
      ∃ e ∈ table ['a', 'b'] [0, -3], e.2 ≤ 0 ∧ e ∈ leaves t :=
  ⟨by decide, by decide, ⟨0, by decide, by decide⟩,
    nonpositive_frequency_builds (fun _ => 0) ['a', 'b'] [0, -3] (by decide) (by decide)
      ⟨0, by decide, by decide⟩⟩

/-- Claim C9, counterexample: on a table that lists the symbol `a` twice buildHuffmanTree
returns a complete tree with two leaves for `a`. -/
theorem duplicate_symbol_counterexample :
    ¬ (['a', 'a'] : List Char).Nodup ∧
    buildHuffmanTree (fun _ => 0) ['a', 'a'] [1, 2] =
      .ok (node '#' 3 (node 'a' 1 null null) (node 'a' 2 null null)) :=
  ⟨by decide, by rfl⟩

/-- Claim C9, amended: buildHuffmanTree does not detect duplicate symbols. On a table in
which a symbol occurs in two entries it returns a tree with one leaf per entry, so the
symbol labels two leaves. -/
theorem duplicate_symbol_builds (tie : TieBreak) (S : List Char) (f : List Int)
    (hlen : S.length = f.length) (hdup : ¬ S.Nodup) :
    ∃ t, buildHuffmanTree tie S f = .ok t ∧ (leaves t).Perm (table S f) ∧
      ¬ ((leaves t).map Prod.fst).Nodup := by
  have hne : S ≠ [] := by
    intro h0
    subst h0
    exact hdup List.nodup_nil
  obtain ⟨t, ht, _, hp⟩ := build_spec tie S f hne (le_of_eq hlen)
  refine ⟨t, ht, hp, ?_⟩
  intro hnd
  have hsym := symbols_perm S f t (le_of_eq hlen) hp
  rw [leafPaths_fst] at hsym
  exact hdup (hsym.nodup_iff.mp hnd)

/-- Witness of the amended claim C9 on the table `a ↦ 1`, `a ↦ 2`. -/
theorem duplicate_symbol_builds_witness :
    (['a', 'a'] : List Char).length = ([1, 2] : List Int).length ∧
    ¬ (['a', 'a'] : List Char).Nodup ∧
    ∃ t, buildHuffmanTree (fun _ => 0) ['a', 'a'] [1, 2] = .ok t ∧
      (leaves t).Perm (table ['a', 'a'] [1, 2]) ∧ ¬ ((leaves t).map Prod.fst).Nodup :=
  ⟨by decide, by decide,
    duplicate_symbol_builds (fun _ => 0) ['a', 'a'] [1, 2] (by decide) (by decide)⟩

theorem totalsLoop_eq (m : CodeMap) (S : List Char) (f : List Int) (b n : Int)
    (hlen : S.length ≤ f.length) :
    totalsLoop m S f (b, n) =
      .ok (b + specTotalBits m (table S f), n + specTotalFrequency m (table S f)) := by
  induction S generalizing f b n with
  | nil => simp [totalsLoop, table, specTotalBits, specTotalFrequency, presentEntries]
  | cons c S ih =>
    cases f with
    | nil => simp at hlen
    | cons w f =>
      have h2 : S.length ≤ f.length := by simpa using hlen
      unfold totalsLoop
      cases hfind : m.find c with
      | none =>
        simp only [ih f b n h2]
        simp [table, specTotalBits, specTotalFrequency, presentEntries, hfind]
      | some code =>
        simp only [ih f _ _ h2]
        simp [table, specTotalBits, specTotalFrequency, presentEntries, hfind, codeLength,
          add_assoc]

/-- Claim C11: the totals of calculateAndPrintTotalBits are, for total bits, the sum over
the table entries whose symbol is present in the code table of frequency times code
length, and for the total symbol count the sum of the frequencies of those entries;
absent entries contribute to neither. -/
theorem totals_refine_spec (S : List Char) (f : List Int) (m : CodeMap)
    (hlen : S.length = f.length) :
    calculateAndPrintTotalBits S f m =
      .ok (specTotalBits m (table S f), specTotalFrequency m (table S f)) := by
  unfold calculateAndPrintTotalBits
  rw [totalsLoop_eq m S f 0 0 (le_of_eq hlen)]
  simp

/-- Witness of claim C11 on a table with one symbol missing from the code table. -/
theorem totals_refine_spec_witness :
    (['a', 'b', 'c'] : List Char).length = ([5, 9, 12] : List Int).length ∧
    calculateAndPrintTotalBits ['a', 'b', 'c'] [5, 9, 12] [('a', ['0']), ('c', ['1', '0'])] =
      .ok (specTotalBits [('a', ['0']), ('c', ['1', '0'])] (table ['a', 'b', 'c'] [5, 9, 12]),
        specTotalFrequency [('a', ['0']), ('c', ['1', '0'])]
          (table ['a', 'b', 'c'] [5, 9, 12])) :=
  ⟨by decide,
    totals_refine_spec ['a', 'b', 'c'] [5, 9, 12] [('a', ['0']), ('c', ['1', '0'])]
      (by decide)⟩

/-! ## The merge loop, iteration by iteration -/

theorem mergeSteps_length (tie : TieBreak) (k : Nat) (q : MinHeap) (h : k + 1 ≤ q.length) :
    ∃ qk, mergeSteps tie k q = .ok qk ∧ qk.length + k = q.length := by
  induction k generalizing q with
  | zero => exact ⟨q, rfl, rfl⟩
  | succ k ih =>
    obtain ⟨a, b, ha, hb, _, _, hstep⟩ := mergeStep_eq tie q (by omega)
    have hlen := length_step q a b (node '#' (a.freq + b.freq) a b) ha hb
    obtain ⟨qk, hqk, hl⟩ := ih (push ((q.erase a).erase b) (node '#' (a.freq + b.freq) a b))
      (by omega)
    refine ⟨qk, ?_, by omega⟩
    simp only [mergeSteps, hstep, bind, Except.bind]
    exact hqk

theorem mergeLoop_eq_steps (tie : TieBreak) (n : Nat) (fuel : Nat) (q : MinHeap)
    (hq : q.length = n + 1) (hfuel : n ≤ fuel) :
    ∃ r, mergeSteps tie n q = .ok [r] ∧ mergeLoop tie fuel q = .ok [r] := by
  induction n generalizing q fuel with
  | zero =>
    match q, hq with
    | [r], _ => exact ⟨r, rfl, by cases fuel <;> simp [mergeLoop]⟩
  | succ n ih =>
    have h1 : 1 < q.length := by omega
    obtain ⟨a, b, ha, hb, _, _, hstep⟩ := mergeStep_eq tie q h1
    have hlen := length_step q a b (node '#' (a.freq + b.freq) a b) ha hb
    cases fuel with
    | zero => omega
    | succ fuel =>
      obtain ⟨r, hr1, hr2⟩ := ih fuel
        (push ((q.erase a).erase b) (node '#' (a.freq + b.freq) a b)) (by omega) (by omega)
      refine ⟨r, ?_, ?_⟩
      · simp only [mergeSteps, hstep, bind, Except.bind]
        exact hr1
      · simp only [mergeLoop, h1, if_true, hstep, bind, Except.bind]
        exact hr2

theorem internalCount_add_one (t : HuffmanNode) (ht : Merged t) :
    internalCount t + 1 = (leaves t).length := by
  induction t with
  | null => simp [Merged] at ht
  | node c w l r ihl ihr =>
    unfold Merged at ht
    rcases ht with ⟨hl, hr⟩ | ⟨hl, _, _, _, hml, hmr⟩
    · simp [internalCount, leaves, hl, hr]
    · have hnl : ¬ (l = null ∧ r = null) := fun h => hl h.1
      simp only [internalCount, leaves, hnl, if_false, List.length_append]
      have := ihl hml
      have := ihr hmr
      omega

/-- Claim C17: on a table with n ≥ 1 entries buildHuffmanTree returns a root without a
fault. The queue starts with n leaves; after k ≤ n - 1 iterations of the loop body it
holds n - k nodes, so the loop runs exactly n - 1 times; the one node left after
n - 1 iterations is the returned root, and it has n leaves and n - 1 internal nodes. -/
theorem build_runs_n_minus_one (tie : TieBreak) (S : List Char) (f : List Int)
    (hne : S ≠ []) (hlen : S.length = f.length) :
    ∃ root, buildHuffmanTree tie S f = .ok root ∧
      initLeaves S f [] = .ok ((table S f).map leafOf) ∧
      ((table S f).map leafOf).length = S.length ∧
      (∀ k, k ≤ S.length - 1 →
        ∃ qk, mergeSteps tie k ((table S f).map leafOf) = .ok qk ∧
          qk.length = S.length - k) ∧
      mergeSteps tie (S.length - 1) ((table S f).map leafOf) = .ok [root] ∧
      (leaves root).length = S.length ∧ internalCount root = S.length - 1 := by
  have hpos : 0 < S.length := List.length_pos.mpr hne
  have hinit := initLeaves_eq S f [] (le_of_eq hlen)
  rw [List.nil_append] at hinit
  have hq0 : ((table S f).map leafOf).length = S.length := by
    simp [table, List.length_zip, ← hlen]
  obtain ⟨t, ht, hm, hp⟩ := build_spec tie S f hne (le_of_eq hlen)
  obtain ⟨r, hr1, hr2⟩ := mergeLoop_eq_steps tie (S.length - 1)
    ((table S f).map leafOf).length ((table S f).map leafOf) (by omega) (by omega)
  have hrt : r = t := by
    have : buildHuffmanTree tie S f = .ok r := by
      simp only [buildHuffmanTree, hinit, hr2, bind, Except.bind]
      exact top_singleton tie r
    rw [ht] at this
    cases this
    rfl
  subst hrt
  have hleaves : (leaves r).length = S.length := by
    rw [hp.length_eq, table, List.length_zip, ← hlen]
    simp
  refine ⟨r, ht, hinit, hq0, ?_, hr1, hleaves, ?_⟩
  · intro k hk
    obtain ⟨qk, hqk, hl⟩ := mergeSteps_length tie k ((table S f).map leafOf) (by omega)
    exact ⟨qk, hqk, by omega⟩
  · have := internalCount_add_one r hm
    omega

/-- Witness of claim C17 on a three-entry table. -/
theorem build_runs_n_minus_one_witness :
    (['a', 'b', 'c'] : List Char) ≠ [] ∧
    (['a', 'b', 'c'] : List Char).length = ([5, 9, 12] : List Int).length ∧
    ∃ root, buildHuffmanTree (fun _ => 0) ['a', 'b', 'c'] [5, 9, 12] = .ok root ∧
      initLeaves ['a', 'b', 'c'] [5, 9, 12] [] =
        .ok ((table ['a', 'b', 'c'] [5, 9, 12]).map leafOf) ∧
      ((table ['a', 'b', 'c'] [5, 9, 12]).map leafOf).length = ['a', 'b', 'c'].length ∧
      (∀ k, k ≤ ['a', 'b', 'c'].length - 1 →
        ∃ qk, mergeSteps (fun _ => 0) k ((table ['a', 'b', 'c'] [5, 9, 12]).map leafOf) =
            .ok qk ∧ qk.length = ['a', 'b', 'c'].length - k) ∧
      mergeSteps (fun _ => 0) (['a', 'b', 'c'].length - 1)
        ((table ['a', 'b', 'c'] [5, 9, 12]).map leafOf) = .ok [root] ∧
      (leaves root).length = ['a', 'b', 'c'].length ∧
      internalCount root = ['a', 'b', 'c'].length - 1 :=
  ⟨by decide, by decide,
    build_runs_n_minus_one (fun _ => 0) ['a', 'b', 'c'] [5, 9, 12] (by decide) (by decide)⟩

/-! ## Shape of the codes -/

theorem leafPaths_bits (t : HuffmanNode) (e : Char × List Char) (he : e ∈ leafPaths t) :
    ∀ b ∈ e.2, b = '0' ∨ b = '1' := by
  induction t generalizing e with
  | null => simp [leafPaths] at he
  | node c w l r ihl ihr =>
    by_cases h : l = null ∧ r = null
    · simp only [leafPaths, h, and_self, if_true, List.mem_singleton] at he
      subst he
      simp
    · simp only [leafPaths, h, if_false, List.mem_append, List.mem_map] at he
      rcases he with ⟨a, ha, rfl⟩ | ⟨a, ha, rfl⟩
      · intro b hb
        rcases List.mem_cons.mp hb with rfl | hb
        · exact Or.inl rfl
        · exact ihl a ha b hb
      · intro b hb
        rcases List.mem_cons.mp hb with rfl | hb
        · exact Or.inr rfl
        · exact ihr a ha b hb

theorem leafPaths_length_le (t : HuffmanNode) (e : Char × List Char)
    (he : e ∈ leafPaths t) : e.2.length ≤ internalCount t := by
  induction t generalizing e with
  | null => simp [leafPaths] at he
  | node c w l r ihl ihr =>
    by_cases h : l = null ∧ r = null
    · simp only [leafPaths, h, and_self, if_true, List.mem_singleton] at he
      subst he
      simp
    · simp only [leafPaths, h, if_false, List.mem_append, List.mem_map] at he
      simp only [internalCount, h, if_false]
      rcases he with ⟨a, ha, rfl⟩ | ⟨a, ha, rfl⟩
      · have := ihl a ha
        simp only [List.length_cons]
        omega
      · have := ihr a ha
        simp only [List.length_cons]
        omega

theorem find_of_mem (m : CodeMap) (hnd : m.keys.Nodup) (c : Char) (v : List Char)
    (h : (c, v) ∈ m) : m.find c = some v := by
  induction m with
  | nil => simp at h
  | cons e m ih =>
    obtain ⟨k1, v1⟩ := e
    have hk : CodeMap.keys ((k1, v1) :: m) = k1 :: CodeMap.keys m := rfl
    rw [hk, List.nodup_cons] at hnd
    unfold CodeMap.find
    rcases List.mem_cons.mp h with heq | hmem
    · cases heq
      simp
    · have hne : k1 ≠ c := by
        intro h2
        subst h2
        exact hnd.1 (List.mem_map.mpr ⟨(k1, v), hmem, rfl⟩)
      simp only [hne, if_false]
      exact ih hnd.2 hmem

/-- Claim C18: for every valid frequency table with n ≥ 2 entries, every code in the
generated code table is non-empty, consists only of the characters `'0'` and `'1'`,
and has length at most n - 1. -/
theorem codes_are_short_bit_strings (tie : TieBreak) (S : List Char) (f : List Int)
    (hv : ValidTable S f) (h2 : 2 ≤ S.length) :
    ∃ m, huffmanCodes tie S f = .ok m ∧
      ∀ c code, (c, code) ∈ m →
        code ≠ [] ∧ (∀ b ∈ code, b = '0' ∨ b = '1') ∧ code.length ≤ S.length - 1 := by
  obtain ⟨t, ht, hm, hp⟩ := build_spec tie S f hv.1 (le_of_eq hv.2.1)
  have hlv : (leaves t).length = S.length := by
    rw [hp.length_eq, table, List.length_zip, ← hv.2.1]
    simp
  refine ⟨_, huffmanCodes_ok tie S f t ht, ?_⟩
  intro c code hmem
  have hfind := find_of_mem _ (codes_keys t hm).1 c code hmem
  have hpath := (codes_find_some t hm c code hfind).1
  refine ⟨?_, ?_, ?_⟩
  · exact paths_ne_nil_of_two t (by omega) (c, code) hpath
  · exact leafPaths_bits t (c, code) hpath
  · have h1 := leafPaths_length_le t (c, code) hpath
    have h3 := internalCount_add_one t hm
    simp only at h1
    omega

/-- Witness of claim C18 on a three-symbol table. -/
theorem codes_are_short_bit_strings_witness :
    ValidTable ['a', 'b', 'c'] [5, 9, 12] ∧ 2 ≤ ['a', 'b', 'c'].length ∧
    ∃ m, huffmanCodes (fun _ => 0) ['a', 'b', 'c'] [5, 9, 12] = .ok m ∧
      ∀ c code, (c, code) ∈ m →
        code ≠ [] ∧ (∀ b ∈ code, b = '0' ∨ b = '1') ∧
          code.length ≤ ['a', 'b', 'c'].length - 1 :=
  ⟨by unfold ValidTable; decide, by decide,
    codes_are_short_bit_strings (fun _ => 0) ['a', 'b', 'c'] [5, 9, 12]
      (by unfold ValidTable; decide) (by decide)⟩

/-! ## The input of main -/

theorem top_of_unique (tie : TieBreak) (q : MinHeap) (x : HuffmanNode)
    (h : topCandidates q = [x]) : top tie q = .ok x := by
  unfold top
  rw [h]
  simp [Nat.mod_one]

theorem mergeStep_of_unique (tie : TieBreak) (q : MinHeap) (a b : HuffmanNode)
    (ha : topCandidates q = [a]) (hb : topCandidates (q.erase a) = [b]) :
    mergeStep tie q =
      .ok (push ((q.erase a).erase b) (node '#' (a.freq + b.freq) a b)) := by
  have hta := top_of_unique tie q a ha
  have htb := top_of_unique tie (q.erase a) b hb
  simp only [mergeStep, hta, pop_of_top tie q a hta, htb, pop_of_top tie _ b htb, bind,
    Except.bind, pure, Except.pure]

theorem mergeLoop_succ (tie : TieBreak) (fuel : Nat) (q q1 : MinHeap) (h1 : 1 < q.length)
    (hs : mergeStep tie q = .ok q1) :
    mergeLoop tie (fuel + 1) q = mergeLoop tie fuel q1 := by
  simp only [mergeLoop, h1, if_true, hs, bind, Except.bind]

theorem main_build (tie : TieBreak) : buildHuffmanTree tie mainS mainF = .ok mainRoot := by
  have h0 : initLeaves mainS mainF [] =
      .ok [leafOf ('a', 5),
        leafOf ('b', 9),
        leafOf ('c', 12),
        leafOf ('d', 13),
        leafOf ('e', 16),
        leafOf ('f', 45)] := rfl
  have s1 : mergeStep tie
      [leafOf ('a', 5),
        leafOf ('b', 9),
        leafOf ('c', 12),
        leafOf ('d', 13),
        leafOf ('e', 16),
        leafOf ('f', 45)] =
      .ok [leafOf ('c', 12),
        leafOf ('d', 13),
        leafOf ('e', 16),
        leafOf ('f', 45),
        node '#' 14 (leafOf ('a', 5)) (leafOf ('b', 9))] :=
    mergeStep_of_unique tie _
      (leafOf ('a', 5))
      (leafOf ('b', 9)) rfl rfl
  have s2 : mergeStep tie
      [leafOf ('c', 12),
        leafOf ('d', 13),
        leafOf ('e', 16),
        leafOf ('f', 45),
        node '#' 14 (leafOf ('a', 5)) (leafOf ('b', 9))] =
      .ok [leafOf ('e', 16),
        leafOf ('f', 45),
        node '#' 14 (leafOf ('a', 5)) (leafOf ('b', 9)),
        node '#' 25 (leafOf ('c', 12)) (leafOf ('d', 13))] :=
    mergeStep_of_unique tie _
      (leafOf ('c', 12))
      (leafOf ('d', 13)) rfl rfl
  have s3 : mergeStep tie
      [leafOf ('e', 16),
        leafOf ('f', 45),
        node '#' 14 (leafOf ('a', 5)) (leafOf ('b', 9)),
        node '#' 25 (leafOf ('c', 12)) (leafOf ('d', 13))] =
      .ok [leafOf ('f', 45),
        node '#' 25 (leafOf ('c', 12)) (leafOf ('d', 13)),
        node '#' 30 (node '#' 14 (leafOf ('a', 5)) (leafOf ('b', 9))) (leafOf ('e', 16))] :=
    mergeStep_of_unique tie _
      (node '#' 14 (leafOf ('a', 5)) (leafOf ('b', 9)))
      (leafOf ('e', 16)) rfl rfl
  have s4 : mergeStep tie
      [leafOf ('f', 45),
        node '#' 25 (leafOf ('c', 12)) (leafOf ('d', 13)),
        node '#' 30 (node '#' 14 (leafOf ('a', 5)) (leafOf ('b', 9))) (leafOf ('e', 16))] =
      .ok [leafOf ('f', 45),
        node '#' 55 (node '#' 25 (leafOf ('c', 12)) (leafOf ('d', 13))) (node '#' 30 (node '#' 14 (leafOf ('a', 5)) (leafOf ('b', 9))) (leafOf ('e', 16)))] :=
    mergeStep_of_unique tie _
      (node '#' 25 (leafOf ('c', 12)) (leafOf ('d', 13)))
      (node '#' 30 (node '#' 14 (leafOf ('a', 5)) (leafOf ('b', 9))) (leafOf ('e', 16))) rfl rfl
  have s5 : mergeStep tie
      [leafOf ('f', 45),
        node '#' 55 (node '#' 25 (leafOf ('c', 12)) (leafOf ('d', 13))) (node '#' 30 (node '#' 14 (leafOf ('a', 5)) (leafOf ('b', 9))) (leafOf ('e', 16)))] =
      .ok [mainRoot] :=
    mergeStep_of_unique tie _
      (leafOf ('f', 45))
      (node '#' 55 (node '#' 25 (leafOf ('c', 12)) (leafOf ('d', 13))) (node '#' 30 (node '#' 14 (leafOf ('a', 5)) (leafOf ('b', 9))) (leafOf ('e', 16)))) rfl rfl
  simp only [buildHuffmanTree, h0, bind, Except.bind, List.length_cons, List.length_nil]
  rw [mergeLoop_succ tie _ _ _ (by decide) s1, mergeLoop_succ tie _ _ _ (by decide) s2,
    mergeLoop_succ tie _ _ _ (by decide) s3, mergeLoop_succ tie _ _ _ (by decide) s4,
    mergeLoop_succ tie _ _ _ (by decide) s5]
  exact top_singleton tie _

/-- Claim C12: on the input of `main`, for every tie-breaking, the root weight and the
total symbol count are 100; the code of `f` is strictly shorter than every other
code; the codes of `a` and `b` are at least as long as every code; and the total
bits, 224, are fewer than 3 times the total symbol count. -/
theorem main_end_to_end (tie : TieBreak) :
    buildHuffmanTree tie mainS mainF = .ok mainRoot ∧ mainRoot.freq = 100 ∧
    huffmanCodes tie mainS mainF = .ok mainCodes ∧
    pipelineTotals tie mainS mainF = .ok (224, 100) ∧
    (∀ c ∈ mainS, c ≠ 'f' → codeLength mainCodes 'f' < codeLength mainCodes c) ∧
    (∀ c ∈ mainS, codeLength mainCodes c ≤ codeLength mainCodes 'a' ∧
      codeLength mainCodes c ≤ codeLength mainCodes 'b') ∧
    (224 : Int) < 3 * 100 := by
  have hb := main_build tie
  refine ⟨hb, rfl, ?_, ?_, by decide, by decide, by decide⟩
  · rw [huffmanCodes_ok tie mainS mainF mainRoot hb]
    rfl
  · simp only [pipelineTotals, hb]
    rfl

/-! ## The placeholder symbol -/

theorem present_iff_not_placeholder (t : HuffmanNode) (ht : Merged t) (S : List Char)
    (f : List Int) (hlen : S.length ≤ f.length) (hp : (leaves t).Perm (table S f))
    (e : Char × Int) (he : e ∈ table S f) :
    ((generateCodes t [] []).find e.1).isSome = decide (e.1 ≠ '#') := by
  have hS : e.1 ∈ S := (List.of_mem_zip (a := e.1) (b := e.2) he).1
  have hsym := symbols_perm S f t hlen hp
  have hk := (codes_keys t ht).2 e.1
  have hmem : e.1 ∈ (leafPaths t).map Prod.fst := hsym.mem_iff.mpr hS
  by_cases hc : e.1 = '#'
  · have hnot : ¬ e.1 ∈ (generateCodes t [] []).keys := fun h => (hk.mp h).2 hc
    rw [← find_isSome_iff] at hnot
    simp [hc] at hnot ⊢
    simpa using hnot
  · have hin : e.1 ∈ (generateCodes t [] []).keys := hk.mpr ⟨hmem, hc⟩
    rw [← find_isSome_iff] at hin
    simp [hc, hin]

theorem presentEntries_generated (t : HuffmanNode) (ht : Merged t) (S : List Char)
    (f : List Int) (hlen : S.length ≤ f.length) (hp : (leaves t).Perm (table S f)) :
    presentEntries (generateCodes t [] []) (table S f) =
      (table S f).filter (fun e => decide (e.1 ≠ '#')) := by
  unfold presentEntries
  exact List.filter_congr (present_iff_not_placeholder t ht S f hlen hp)

/-- Claim C20: in a table with distinct symbols that contains `'#'`, the `'#'` entry has
its leaf in the tree but no entry in the code table; every other leaf symbol is mapped
to its root-to-leaf path; and both totals of calculateAndPrintTotalBits run over the
entries other than `'#'` only. -/
theorem placeholder_symbol_skipped (tie : TieBreak) (S : List Char) (f : List Int)
    (t : HuffmanNode) (hb : buildHuffmanTree tie S f = .ok t) (hnd : S.Nodup)
    (hh : '#' ∈ S) :
    (∃ w, ('#', w) ∈ leaves t) ∧
    (generateCodes t [] []).find '#' = none ∧
    (∀ c p, (c, p) ∈ leafPaths t → c ≠ '#' → (generateCodes t [] []).find c = some p) ∧
    calculateAndPrintTotalBits S f (generateCodes t [] []) =
      .ok ((((table S f).filter (fun e => decide (e.1 ≠ '#'))).map
          (fun e => e.2 * (codeLength (generateCodes t [] []) e.1 : Int))).sum,
        (((table S f).filter (fun e => decide (e.1 ≠ '#'))).map Prod.snd).sum) := by
  obtain ⟨_, hlen, hm, hp⟩ := build_ok_spec tie S f t hb
  have hsym := symbols_perm S f t hlen hp
  refine ⟨?_, ?_, ?_, ?_⟩
  · have h1 : '#' ∈ (leaves t).map Prod.fst := by
      rw [← leafPaths_fst]
      exact hsym.mem_iff.mpr hh
    obtain ⟨e, he, hfst⟩ := List.mem_map.mp h1
    refine ⟨e.2, ?_⟩
    rw [← hfst]
    exact he
  · cases hfind : (generateCodes t [] []).find '#' with
    | none => rfl
    | some v => exact absurd rfl (codes_find_some t hm '#' v hfind).2
  · intro c p hcp hc
    exact codes_find_of_mem t hm (hsym.nodup_iff.mpr hnd) c p hcp hc
  · unfold calculateAndPrintTotalBits
    rw [totalsLoop_eq _ S f 0 0 hlen]
    simp only [specTotalBits, specTotalFrequency, presentEntries_generated t hm S f hlen hp,
      zero_add]

/-- Witness of claim C20 on the table `#` ↦ 7, `a` ↦ 2, `b` ↦ 4. -/
theorem placeholder_symbol_skipped_witness :
    buildHuffmanTree (fun _ => 0) ['#', 'a', 'b'] [7, 2, 4] =
      .ok (node '#' 13 (node '#' 6 (leafOf ('a', 2)) (leafOf ('b', 4))) (leafOf ('#', 7))) ∧
    (['#', 'a', 'b'] : List Char).Nodup ∧ '#' ∈ (['#', 'a', 'b'] : List Char) ∧
    (∃ w, ('#', w) ∈
      leaves (node '#' 13 (node '#' 6 (leafOf ('a', 2)) (leafOf ('b', 4))) (leafOf ('#', 7)))) ∧
    (generateCodes (node '#' 13 (node '#' 6 (leafOf ('a', 2)) (leafOf ('b', 4))) (leafOf ('#', 7)))
      [] []).find '#' = none ∧
    (∀ c p, (c, p) ∈ leafPaths (node '#' 13 (node '#' 6 (leafOf ('a', 2)) (leafOf ('b', 4))) (leafOf ('#', 7))) →
      c ≠ '#' →
      (generateCodes (node '#' 13 (node '#' 6 (leafOf ('a', 2)) (leafOf ('b', 4))) (leafOf ('#', 7)))
        [] []).find c = some p) ∧
    calculateAndPrintTotalBits ['#', 'a', 'b'] [7, 2, 4]
        (generateCodes (node '#' 13 (node '#' 6 (leafOf ('a', 2)) (leafOf ('b', 4))) (leafOf ('#', 7)))
          [] []) =
      .ok ((((table ['#', 'a', 'b'] [7, 2, 4]).filter (fun e => decide (e.1 ≠ '#'))).map
          (fun e => e.2 * (codeLength (generateCodes
            (node '#' 13 (node '#' 6 (leafOf ('a', 2)) (leafOf ('b', 4))) (leafOf ('#', 7)))
            [] []) e.1 : Int))).sum,
        (((table ['#', 'a', 'b'] [7, 2, 4]).filter (fun e => decide (e.1 ≠ '#'))).map
          Prod.snd).sum) :=
  ⟨rfl, by decide, by decide,
    placeholder_symbol_skipped (fun _ => 0) ['#', 'a', 'b'] [7, 2, 4] _ rfl (by decide)
      (by decide)⟩

/-! ## Depths, weighted path length and internal weights -/

theorem leafDepths_fst (t : HuffmanNode) : (leafDepths t).map Prod.fst = leaves t := by
  induction t with
  | null => rfl
  | node c w l r ihl ihr =>
    by_cases h : l = null ∧ r = null
    · simp [leafDepths, leaves, h]
    · simp only [leafDepths, leaves, h, if_false, List.map_map, List.map_append, ← ihl, ← ihr]
      rfl

theorem leafDepths_paths (t : HuffmanNode) :
    (leafDepths t).map (fun e => (e.1.1, e.2)) =
      (leafPaths t).map (fun p => (p.1, p.2.length)) := by
  induction t with
  | null => rfl
  | node c w l r ihl ihr =>
    by_cases h : l = null ∧ r = null
    · simp [leafDepths, leafPaths, h]
    · simp only [leafDepths, leafPaths, h, if_false, List.map_map, List.map_append]
      congr 1
      · have := congrArg (List.map (fun e : Char × Nat => (e.1, e.2 + 1))) ihl
        simpa [List.map_map, Function.comp] using this
      · have := congrArg (List.map (fun e : Char × Nat => (e.1, e.2 + 1))) ihr
        simpa [List.map_map, Function.comp] using this

theorem sum_lift (L : List ((Char × Int) × Nat)) :
    ((L.map (fun e : (Char × Int) × Nat => (e.1, e.2 + 1))).map
        (fun e => e.1.2 * (e.2 : Int))).sum =
      (L.map (fun e => e.1.2 * (e.2 : Int))).sum + ((L.map Prod.fst).map Prod.snd).sum := by
  induction L with
  | nil => simp
  | cons e L ih =>
    simp only [List.map_cons, List.sum_cons, ih]
    push_cast
    ring

theorem wpl_node (c : Char) (w : Int) (l r : HuffmanNode) (h : ¬ (l = null ∧ r = null)) :
    weightedPathLength (node c w l r) =
      weightedPathLength l + weightedPathLength r +
        (((leaves l).map Prod.snd).sum + ((leaves r).map Prod.snd).sum) := by
  simp only [weightedPathLength, leafDepths, h, if_false]
  rw [sum_lift]
  simp only [List.map_append, List.sum_append, leafDepths_fst]

theorem wpl_eq_internalWeightSum (t : HuffmanNode) (ht : Merged t) :
    weightedPathLength t = internalWeightSum t := by
  induction t with
  | null => simp [Merged] at ht
  | node c w l r ihl ihr =>
    unfold Merged at ht
    rcases ht with ⟨hl, hr⟩ | ⟨hl, _, _, hw, hml, hmr⟩
    · simp [weightedPathLength, leafDepths, internalWeightSum, hl, hr]
    · have hnl : ¬ (l = null ∧ r = null) := fun h => hl h.1
      rw [wpl_node c w l r hnl, ihl hml, ihr hmr]
      simp only [internalWeightSum, hnl, if_false]
      rw [hw, freq_eq_sum_leaves l hml, freq_eq_sum_leaves r hmr]
      ring

theorem codeLength_of_leaf (t : HuffmanNode) (ht : Merged t)
    (hnd : ((leafPaths t).map Prod.fst).Nodup) (e : (Char × Int) × Nat)
    (he : e ∈ leafDepths t) (hc : e.1.1 ≠ '#') :
    codeLength (generateCodes t [] []) e.1.1 = e.2 := by
  have h1 : (e.1.1, e.2) ∈ (leafDepths t).map (fun e => (e.1.1, e.2)) :=
    List.mem_map.mpr ⟨e, he, rfl⟩
  rw [leafDepths_paths] at h1
  obtain ⟨p, hp, hpe⟩ := List.mem_map.mp h1
  have hfst : p.1 = e.1.1 := congrArg Prod.fst hpe
  have hsnd : p.2.length = e.2 := congrArg Prod.snd hpe
  have hmem : (e.1.1, p.2) ∈ leafPaths t := by
    rw [← hfst]
    exact hp
  unfold codeLength
  rw [codes_find_of_mem t ht hnd e.1.1 p.2 hmem hc]
  exact hsnd

theorem presentEntries_all (t : HuffmanNode) (ht : Merged t) (S : List Char)
    (f : List Int) (hlen : S.length ≤ f.length) (hp : (leaves t).Perm (table S f))
    (hh : '#' ∉ S) :
    presentEntries (generateCodes t [] []) (table S f) = table S f := by
  rw [presentEntries_generated t ht S f hlen hp, List.filter_eq_self]
  intro e he
  have hS : e.1 ∈ S := (List.of_mem_zip (a := e.1) (b := e.2) he).1
  have : e.1 ≠ '#' := fun h => hh (h ▸ hS)
  simpa using this

/-- On a table with distinct symbols other than `'#'` the totals are the weighted path
length of the tree and the sum of the leaf weights. -/
theorem totals_eq_wpl (t : HuffmanNode) (ht : Merged t) (S : List Char) (f : List Int)
    (hlen : S.length ≤ f.length) (hp : (leaves t).Perm (table S f)) (hnd : S.Nodup)
    (hh : '#' ∉ S) :
    calculateAndPrintTotalBits S f (generateCodes t [] []) =
      .ok (weightedPathLength t, ((leaves t).map Prod.snd).sum) := by
  have hsym := symbols_perm S f t hlen hp
  have hnd2 := hsym.nodup_iff.mpr hnd
  unfold calculateAndPrintTotalBits
  rw [totalsLoop_eq _ S f 0 0 hlen]
  simp only [specTotalBits, specTotalFrequency, presentEntries_all t ht S f hlen hp hh,
    zero_add]
  have h1 : ((table S f).map
        (fun e => e.2 * (codeLength (generateCodes t [] []) e.1 : Int))).sum =
      weightedPathLength t := by
    rw [← (hp.map _).sum_eq, ← leafDepths_fst, List.map_map]
    unfold weightedPathLength
    congr 1
    apply List.map_congr_left
    intro e he
    have hmem : e.1.1 ∈ S := by
      have : e.1 ∈ leaves t := by
        rw [← leafDepths_fst]
        exact List.mem_map.mpr ⟨e, he, rfl⟩
      exact (List.of_mem_zip (a := e.1.1) (b := e.1.2) (hp.mem_iff.mp this)).1
    have hc : e.1.1 ≠ '#' := fun h => hh (h ▸ hmem)
    simp only [Function.comp, codeLength_of_leaf t ht hnd2 e he hc]
  have h2 : ((table S f).map Prod.snd).sum = ((leaves t).map Prod.snd).sum :=
    ((hp.map Prod.snd).sum_eq).symm
  rw [h1, h2]

theorem internalWeightSum_of_single (t : HuffmanNode) (h : (leaves t).length = 1)
    (ht : Merged t) : internalWeightSum t = 0 := by
  have hc := internalCount_add_one t ht
  cases t with
  | null => rfl
  | node c w l r =>
    by_cases hl : l = null ∧ r = null
    · simp [internalWeightSum, hl]
    · simp only [internalCount, hl, if_false] at hc
      omega

/-! ## Optimality: depth multisets and the exchange argument -/

theorem validDepths_cases (D : Multiset Nat) (h : ValidDepths D) :
    D = {0} ∨ ∃ k D0, D = (k + 1) ::ₘ (k + 1) ::ₘ D0 ∧ (∀ d ∈ D, d ≤ k + 1) ∧
      ValidDepths (k ::ₘ D0) := by
  induction h with
  | single => exact Or.inl rfl
  | join A B hA hB ihA ihB =>
    right
    rcases ihA with hA0 | ⟨ka, A0, hAeq, hAmax, hAv⟩
    · rcases ihB with hB0 | ⟨kb, B0, hBeq, hBmax, hBv⟩
      · subst hA0
        subst hB0
        refine ⟨0, 0, rfl, ?_, ?_⟩
        · intro d hd
          simp at hd
          omega
        · simpa using ValidDepths.single
      · subst hA0
        refine ⟨kb + 1, 1 ::ₘ B0.map Nat.succ, ?_, ?_, ?_⟩
        · rw [hBeq]
          simp only [← Multiset.singleton_add, Multiset.map_add, Multiset.map_singleton]
          abel
        · intro d hd
          rcases Multiset.mem_add.mp hd with hd | hd
          · simp at hd
            omega
          · obtain ⟨x, hx, rfl⟩ := Multiset.mem_map.mp hd
            have := hBmax x hx
            omega
        · have hj := ValidDepths.join {0} (kb ::ₘ B0) ValidDepths.single hBv
          have he : Multiset.map Nat.succ {0} + Multiset.map Nat.succ (kb ::ₘ B0) =
              (kb + 1) ::ₘ 1 ::ₘ B0.map Nat.succ := by
            simp only [← Multiset.singleton_add, Multiset.map_add, Multiset.map_singleton]
            abel
          rwa [he] at hj
    · rcases ihB with hB0 | ⟨kb, B0, hBeq, hBmax, hBv⟩
      · subst hB0
        refine ⟨ka + 1, A0.map Nat.succ + {1}, ?_, ?_, ?_⟩
        · rw [hAeq]
          simp only [← Multiset.singleton_add, Multiset.map_add, Multiset.map_singleton]
          abel
        · intro d hd
          rcases Multiset.mem_add.mp hd with hd | hd
          · obtain ⟨x, hx, rfl⟩ := Multiset.mem_map.mp hd
            have := hAmax x hx
            omega
          · simp at hd
            omega
        · have hj := ValidDepths.join (ka ::ₘ A0) {0} hAv ValidDepths.single
          have he : Multiset.map Nat.succ (ka ::ₘ A0) + Multiset.map Nat.succ {0} =
              (ka + 1) ::ₘ (A0.map Nat.succ + {1}) := by
            simp only [← Multiset.singleton_add, Multiset.map_add, Multiset.map_singleton]
            abel
          rwa [he] at hj
      · by_cases hk : kb ≤ ka
        · refine ⟨ka + 1, A0.map Nat.succ + B.map Nat.succ, ?_, ?_, ?_⟩
          · rw [hAeq]
            simp only [← Multiset.singleton_add, Multiset.map_add, Multiset.map_singleton]
            abel
          · intro d hd
            rcases Multiset.mem_add.mp hd with hd | hd
            · obtain ⟨x, hx, rfl⟩ := Multiset.mem_map.mp hd
              have := hAmax x hx
              omega
            · obtain ⟨x, hx, rfl⟩ := Multiset.mem_map.mp hd
              have := hBmax x hx
              omega
          · have hj := ValidDepths.join (ka ::ₘ A0) B hAv hB
            have he : Multiset.map Nat.succ (ka ::ₘ A0) + Multiset.map Nat.succ B =
                (ka + 1) ::ₘ (A0.map Nat.succ + B.map Nat.succ) := by
              simp only [← Multiset.singleton_add, Multiset.map_add, Multiset.map_singleton]
              abel
            rwa [he] at hj
        · refine ⟨kb + 1, A.map Nat.succ + B0.map Nat.succ, ?_, ?_, ?_⟩
          · rw [hBeq]
            simp only [← Multiset.singleton_add, Multiset.map_add, Multiset.map_singleton]
            abel
          · intro d hd
            rcases Multiset.mem_add.mp hd with hd | hd
            · obtain ⟨x, hx, rfl⟩ := Multiset.mem_map.mp hd
              have := hAmax x hx
              omega
            · obtain ⟨x, hx, rfl⟩ := Multiset.mem_map.mp hd
              have := hBmax x hx
              omega
          · have hj := ValidDepths.join A (kb ::ₘ B0) hA hBv
            have he : Multiset.map Nat.succ A + Multiset.map Nat.succ (kb ::ₘ B0) =
                (kb + 1) ::ₘ (A.map Nat.succ + B0.map Nat.succ) := by
              simp only [← Multiset.singleton_add, Multiset.map_add, Multiset.map_singleton]
              abel
            rwa [he] at hj

theorem validDepths_card_one (D : Multiset Nat) (h : ValidDepths D)
    (hc : Multiset.card D = 1) : D = {0} := by
  rcases validDepths_cases D h with h0 | ⟨k, D0, hD, _, _⟩
  · exact h0
  · rw [hD] at hc
    simp at hc

theorem pairCost_cons (e : Int × Nat) (P : Multiset (Int × Nat)) :
    pairCost (e ::ₘ P) = e.1 * (e.2 : Int) + pairCost P := by
  simp [pairCost]

/-- Exchange step: a least weight can be moved to a greatest depth without raising the
cost. -/
theorem exchange_min (P : Multiset (Int × Nat)) (a : Int) (K : Nat) (W : Multiset Int)
    (D : Multiset Nat) (hW : P.map Prod.fst = a ::ₘ W) (hD : P.map Prod.snd = K ::ₘ D)
    (hmin : ∀ x ∈ P.map Prod.fst, a ≤ x) (hmax : ∀ d ∈ P.map Prod.snd, d ≤ K) :
    ∃ P0 : Multiset (Int × Nat), P0.map Prod.fst = W ∧ P0.map Prod.snd = D ∧
      pairCost P0 + a * (K : Int) ≤ pairCost P := by
  have ha : a ∈ P.map Prod.fst := by
    rw [hW]
    exact Multiset.mem_cons_self a W
  obtain ⟨e, he, hea⟩ := Multiset.mem_map.mp ha
  obtain ⟨P1, hP1⟩ := Multiset.exists_cons_of_mem he
  subst hP1
  rw [Multiset.map_cons, hea, Multiset.cons_inj_right] at hW
  rw [Multiset.map_cons] at hD
  by_cases hd : e.2 = K
  · rw [hd, Multiset.cons_inj_right] at hD
    refine ⟨P1, hW, hD, ?_⟩
    rw [pairCost_cons, hea, hd]
    linarith
  · have hK : K ∈ e.2 ::ₘ P1.map Prod.snd := by
      rw [hD]
      exact Multiset.mem_cons_self K D
    rcases Multiset.mem_cons.mp hK with hK | hK
    · exact absurd hK.symm hd
    · obtain ⟨e2, he2, he2K⟩ := Multiset.mem_map.mp hK
      obtain ⟨P2, hP2⟩ := Multiset.exists_cons_of_mem he2
      subst hP2
      rw [Multiset.map_cons, he2K, Multiset.cons_swap, Multiset.cons_inj_right] at hD
      refine ⟨(e2.1, e.2) ::ₘ P2, ?_, ?_, ?_⟩
      · rw [Multiset.map_cons, ← hW, Multiset.map_cons]
      · rw [Multiset.map_cons, ← hD]
      · have hxa : a ≤ e2.1 := by
          apply hmin
          simp [Multiset.map_cons, Multiset.mem_cons]
        have hdK : (e.2 : Int) ≤ (K : Int) := by
          have : e.2 ≤ K := by
            apply hmax
            simp [Multiset.map_cons, Multiset.mem_cons]
          exact_mod_cast this
        rw [pairCost_cons, pairCost_cons, pairCost_cons, hea, he2K]
        simp only
        nlinarith [mul_nonneg (sub_nonneg.mpr hxa) (sub_nonneg.mpr hdK)]

/-- Merging the two least weights: from an assignment of the weights `a`, `b`, `R` to
the depths of a full tree one gets an assignment of `a + b`, `R` to the depths of a full
tree with one leaf fewer, cheaper by at least `a + b`. -/
theorem merge_two_min (P : Multiset (Int × Nat)) (a b : Int) (R : Multiset Int)
    (hW : P.map Prod.fst = a ::ₘ b ::ₘ R) (hab : a ≤ b) (hR : ∀ x ∈ R, b ≤ x)
    (hV : ValidDepths (P.map Prod.snd)) :
    ∃ P2 : Multiset (Int × Nat), P2.map Prod.fst = (a + b) ::ₘ R ∧
      ValidDepths (P2.map Prod.snd) ∧ pairCost P2 + (a + b) ≤ pairCost P := by
  rcases validDepths_cases _ hV with h0 | ⟨k, D0, hD, hmax, hv⟩
  · have h1 := congrArg Multiset.card h0
    have h2 := congrArg Multiset.card hW
    simp only [Multiset.card_map, Multiset.card_singleton, Multiset.card_cons] at h1 h2
    omega
  · have hmin1 : ∀ x ∈ P.map Prod.fst, a ≤ x := by
      intro x hx
      rw [hW] at hx
      rcases Multiset.mem_cons.mp hx with rfl | hx
      · exact le_refl _
      · rcases Multiset.mem_cons.mp hx with rfl | hx
        · exact hab
        · exact le_trans hab (hR x hx)
    obtain ⟨P0, hW0, hD0, hc0⟩ := exchange_min P a (k + 1) (b ::ₘ R) ((k + 1) ::ₘ D0) hW hD
      hmin1 hmax
    have hmin2 : ∀ x ∈ P0.map Prod.fst, b ≤ x := by
      intro x hx
      rw [hW0] at hx
      rcases Multiset.mem_cons.mp hx with rfl | hx
      · exact le_refl _
      · exact hR x hx
    have hmax2 : ∀ d ∈ P0.map Prod.snd, d ≤ k + 1 := by
      intro d hd
      apply hmax
      rw [hD]
      rw [hD0] at hd
      exact Multiset.mem_cons_of_mem hd
    obtain ⟨P1, hW1, hD1, hc1⟩ := exchange_min P0 b (k + 1) R D0 hW0 hD0 hmin2 hmax2
    refine ⟨(a + b, k) ::ₘ P1, ?_, ?_, ?_⟩
    · rw [Multiset.map_cons, hW1]
    · rw [Multiset.map_cons, hD1]
      exact hv
    · rw [pairCost_cons]
      push_cast at hc0 hc1
      simp only
      nlinarith

theorem pairCost_single (P : Multiset (Int × Nat)) (hV : ValidDepths (P.map Prod.snd))
    (hc : Multiset.card P = 1) : pairCost P = 0 := by
  obtain ⟨e, rfl⟩ := Multiset.card_eq_one.mp hc
  have h0 := validDepths_card_one _ hV (by simp)
  rw [Multiset.map_singleton, Multiset.singleton_inj] at h0
  simp [pairCost, h0]

theorem internalWeightSum_merge (a b : HuffmanNode) (ha : a ≠ null) (w : Int) :
    internalWeightSum (node '#' w a b) = w + internalWeightSum a + internalWeightSum b := by
  have h : ¬ (a = null ∧ b = null) := fun h => ha h.1
  simp only [internalWeightSum, h, if_false]

theorem mergeLoop_optimal (tie : TieBreak) (tbl : List (Char × Int)) :
    ∀ (fuel : Nat) (q : MinHeap), HeapInv tbl q → q ≠ [] → q.length ≤ fuel + 1 →
      ∀ (P : Multiset (Int × Nat)), ValidDepths (P.map Prod.snd) →
        P.map Prod.fst = ((q.map HuffmanNode.freq : List Int) : Multiset Int) →
        ∀ r, mergeLoop tie fuel q = .ok [r] →
          internalWeightSum r ≤ (q.map internalWeightSum).sum + pairCost P := by
  intro fuel
  induction fuel with
  | zero =>
    intro q _ hq hlen P hV hW r hr
    match q, hq, hlen with
    | [r0], _, _ =>
      have hc : Multiset.card P = 1 := by
        have := congrArg Multiset.card hW
        simpa using this
      rw [pairCost_single P hV hc]
      simp only [mergeLoop, List.length_singleton, gt_iff_lt, Nat.lt_irrefl, if_false] at hr
      cases hr
      simp
    | _ :: _ :: _, _, hlen => simp at hlen
  | succ fuel ih =>
    intro q hinv hq hlen P hV hW r hr
    by_cases h1 : 1 < q.length
    · obtain ⟨a, b, ha, hb, hta, htb, hstep⟩ := mergeStep_eq tie q h1
      have hinv2 := heapInv_step tbl q a b hinv ha hb
      have hlen2 := length_step q a b (node '#' (a.freq + b.freq) a b) ha hb
      have hperm : q.Perm (a :: b :: (q.erase a).erase b) :=
        (List.perm_cons_erase ha).trans ((List.perm_cons_erase hb).cons a)
      have hna : a ≠ null := merged_ne_null a (hinv.1 a ha)
      have hab : a.freq ≤ b.freq := (top_ok_mem tie q a hta).2 b (List.mem_of_mem_erase hb)
      have hrest : ∀ x ∈ ((((q.erase a).erase b).map HuffmanNode.freq : List Int) :
          Multiset Int), b.freq ≤ x := by
        intro x hx
        obtain ⟨y, hy, rfl⟩ := List.mem_map.mp (Multiset.mem_coe.mp hx)
        exact (top_ok_mem tie _ b htb).2 y (List.mem_of_mem_erase hy)
      have hW2 : P.map Prod.fst = a.freq ::ₘ b.freq ::ₘ
          ((((q.erase a).erase b).map HuffmanNode.freq : List Int) : Multiset Int) := by
        rw [hW, Multiset.cons_coe, Multiset.cons_coe, Multiset.coe_eq_coe]
        exact hperm.map HuffmanNode.freq
      obtain ⟨P2, hP2W, hP2V, hP2c⟩ := merge_two_min P a.freq b.freq _ hW2 hab hrest hV
      have hne : push ((q.erase a).erase b) (node '#' (a.freq + b.freq) a b) ≠ [] := by
        simp [push]
      have hW3 : P2.map Prod.fst =
          (((push ((q.erase a).erase b) (node '#' (a.freq + b.freq) a b)).map
            HuffmanNode.freq : List Int) : Multiset Int) := by
        rw [hP2W, Multiset.cons_coe, Multiset.coe_eq_coe]
        simp only [push, List.map_append, List.map_cons, List.map_nil, HuffmanNode.freq]
        exact @List.perm_append_comm _ [a.freq + b.freq] _
      have hr2 : mergeLoop tie fuel
          (push ((q.erase a).erase b) (node '#' (a.freq + b.freq) a b)) = .ok [r] := by
        simp only [mergeLoop, h1, if_true, hstep, bind, Except.bind] at hr
        exact hr
      have hbound := ih _ hinv2 hne (by omega) P2 hP2V hW3 r hr2
      have hs1 : (q.map internalWeightSum).sum =
          internalWeightSum a + (internalWeightSum b +
            (((q.erase a).erase b).map internalWeightSum).sum) := by
        rw [(hperm.map internalWeightSum).sum_eq]
        simp
      have hs2 : ((push ((q.erase a).erase b) (node '#' (a.freq + b.freq) a b)).map
          internalWeightSum).sum =
          (((q.erase a).erase b).map internalWeightSum).sum +
            (a.freq + b.freq + internalWeightSum a + internalWeightSum b) := by
        simp only [push, List.map_append, List.sum_append, List.map_cons, List.map_nil,
          List.sum_cons, List.sum_nil, internalWeightSum_merge a b hna, add_zero]
      rw [hs2] at hbound
      rw [hs1]
      linarith
    · match q, hq, h1 with
      | [r0], _, _ =>
        have hc : Multiset.card P = 1 := by
          have := congrArg Multiset.card hW
          simpa using this
        rw [pairCost_single P hV hc]
        simp only [mergeLoop, List.length_singleton, gt_iff_lt, Nat.lt_irrefl, if_false] at hr
        cases hr
        simp
      | _ :: _ :: _, _, h1 => simp at h1

/-- The tree that buildHuffmanTree returns costs no more than any assignment of the
table's weights to the depths of a full binary tree. -/
theorem build_optimal (tie : TieBreak) (S : List Char) (f : List Int) (t : HuffmanNode)
    (hb : buildHuffmanTree tie S f = .ok t) (P : Multiset (Int × Nat))
    (hV : ValidDepths (P.map Prod.snd))
    (hW : P.map Prod.fst = (((table S f).map Prod.snd : List Int) : Multiset Int)) :
    weightedPathLength t ≤ pairCost P := by
  obtain ⟨hne, hlen, hm, _⟩ := build_ok_spec tie S f t hb
  have hinit := initLeaves_eq S f [] hlen
  rw [List.nil_append] at hinit
  have hinv := heapInv_init (table S f)
  have hq : (table S f).map leafOf ≠ [] := by
    cases S with
    | nil => exact absurd rfl hne
    | cons c S =>
      cases f with
      | nil => simp at hlen
      | cons w f => simp [table]
  obtain ⟨r, hr, _⟩ := mergeLoop_spec tie (table S f) _ _ hinv hq (Nat.le_succ _)
  have hrt : r = t := by
    simp only [buildHuffmanTree, hinit, hr, bind, Except.bind] at hb
    rw [top_singleton] at hb
    cases hb
    rfl
  subst hrt
  have hW2 : P.map Prod.fst =
      ((((table S f).map leafOf).map HuffmanNode.freq : List Int) : Multiset Int) := by
    rw [hW, List.map_map]
    rfl
  have hbound := mergeLoop_optimal tie (table S f) _ _ hinv hq (Nat.le_succ _) P hV hW2 r hr
  have hzero : (((table S f).map leafOf).map internalWeightSum).sum = 0 := by
    rw [List.map_map]
    apply List.sum_eq_zero
    intro x hx
    obtain ⟨e, _, rfl⟩ := List.mem_map.mp hx
    simp [leafOf, internalWeightSum]
  rw [hzero, zero_add] at hbound
  rw [wpl_eq_internalWeightSum r hm]
  exact hbound

/-! ## Optimality: trees as competitors -/

theorem pairCost_weightDepths (t : HuffmanNode) :
    pairCost (weightDepths t) = weightedPathLength t := by
  unfold pairCost weightDepths weightedPathLength
  rw [Multiset.map_coe, Multiset.sum_coe, List.map_map]
  rfl

theorem weightDepths_fst (t : HuffmanNode) :
    (weightDepths t).map Prod.fst = (((leaves t).map Prod.snd : List Int) : Multiset Int) := by
  unfold weightDepths
  rw [Multiset.map_coe, ← leafDepths_fst, List.map_map, List.map_map]
  rfl

theorem weightDepths_node (c : Char) (w : Int) (l r : HuffmanNode)
    (h : ¬ (l = null ∧ r = null)) :
    weightDepths (node c w l r) =
      (weightDepths l).map (fun e => (e.1, e.2 + 1)) +
        (weightDepths r).map (fun e => (e.1, e.2 + 1)) := by
  unfold weightDepths
  simp only [leafDepths, h, if_false]
  rw [Multiset.map_coe, Multiset.map_coe, Multiset.coe_add, List.map_map, List.map_map,
    List.map_map, List.map_append]
  rfl

theorem pairCost_lift (P : Multiset (Int × Nat)) :
    pairCost (P.map (fun e => (e.1, e.2 + 1))) = pairCost P + (P.map Prod.fst).sum := by
  induction P using Multiset.induction_on with
  | empty => simp [pairCost]
  | cons e P ih =>
    rw [Multiset.map_cons, pairCost_cons, pairCost_cons, ih, Multiset.map_cons,
      Multiset.sum_cons]
    push_cast
    ring

theorem snd_lift (P : Multiset (Int × Nat)) :
    (P.map (fun e => (e.1, e.2 + 1))).map Prod.snd = (P.map Prod.snd).map Nat.succ := by
  simp [Multiset.map_map, Function.comp]

theorem fst_lift (P : Multiset (Int × Nat)) :
    (P.map (fun e => (e.1, e.2 + 1))).map Prod.fst = P.map Prod.fst := by
  simp [Multiset.map_map, Function.comp]

theorem validDepths_of_merged (t : HuffmanNode) (ht : Merged t) :
    ValidDepths ((weightDepths t).map Prod.snd) := by
  induction t with
  | null => simp [Merged] at ht
  | node c w l r ihl ihr =>
    unfold Merged at ht
    rcases ht with ⟨hl, hr⟩ | ⟨hl, _, _, _, hml, hmr⟩
    · subst hl
      subst hr
      have : (weightDepths (node c w null null)).map Prod.snd = {0} := by
        simp [weightDepths, leafDepths]
      rw [this]
      exact ValidDepths.single
    · have hnl : ¬ (l = null ∧ r = null) := fun h => hl h.1
      rw [weightDepths_node c w l r hnl, Multiset.map_add, snd_lift, snd_lift]
      exact ValidDepths.join _ _ (ihl hml) (ihr hmr)

theorem wpl_of_no_leaves (t : HuffmanNode) (h : leaves t = []) : weightedPathLength t = 0 := by
  have : leafDepths t = [] := by
    rw [← leafDepths_fst] at h
    exact List.map_eq_nil_iff.mp h
  simp [weightedPathLength, this]

/-- Every tree with non-negative leaf weights is matched, at no higher cost, by an
assignment of its weights to the depths of a full binary tree. -/
theorem exists_full_pairs (t : HuffmanNode) (hne : leaves t ≠ [])
    (hpos : ∀ e ∈ leaves t, 0 ≤ e.2) :
    ∃ P : Multiset (Int × Nat), ValidDepths (P.map Prod.snd) ∧
      P.map Prod.fst = (((leaves t).map Prod.snd : List Int) : Multiset Int) ∧
      pairCost P ≤ weightedPathLength t := by
  induction t with
  | null => exact absurd rfl hne
  | node c w l r ihl ihr =>
    by_cases h : l = null ∧ r = null
    · refine ⟨{(w, 0)}, ?_, ?_, ?_⟩
      · simpa using ValidDepths.single
      · simp [leaves, h]
      · simp [pairCost, weightedPathLength, leafDepths, h]
    · have hlv : leaves (node c w l r) = leaves l ++ leaves r := by
        simp only [leaves, h, if_false]
      rw [hlv] at hne hpos
      have hposl : ∀ e ∈ leaves l, 0 ≤ e.2 := fun e he =>
        hpos e (List.mem_append.mpr (Or.inl he))
      have hposr : ∀ e ∈ leaves r, 0 ≤ e.2 := fun e he =>
        hpos e (List.mem_append.mpr (Or.inr he))
      have hsl : 0 ≤ ((leaves l).map Prod.snd).sum := by
        apply List.sum_nonneg
        intro x hx
        obtain ⟨e, he, rfl⟩ := List.mem_map.mp hx
        exact hposl e he
      have hsr : 0 ≤ ((leaves r).map Prod.snd).sum := by
        apply List.sum_nonneg
        intro x hx
        obtain ⟨e, he, rfl⟩ := List.mem_map.mp hx
        exact hposr e he
      rw [hlv, wpl_node c w l r h]
      by_cases hl : leaves l = []
      · by_cases hr : leaves r = []
        · rw [hl, hr] at hne
          exact absurd rfl hne
        · obtain ⟨P, hV, hW, hc⟩ := ihr hr hposr
          refine ⟨P, hV, ?_, ?_⟩
          · rw [hW, hl, List.nil_append]
          · rw [wpl_of_no_leaves l hl]
            linarith
      · by_cases hr : leaves r = []
        · obtain ⟨P, hV, hW, hc⟩ := ihl hl hposl
          refine ⟨P, hV, ?_, ?_⟩
          · rw [hW, hr, List.append_nil]
          · rw [wpl_of_no_leaves r hr]
            linarith
        · obtain ⟨Pl, hVl, hWl, hcl⟩ := ihl hl hposl
          obtain ⟨Pr, hVr, hWr, hcr⟩ := ihr hr hposr
          refine ⟨Pl.map (fun e => (e.1, e.2 + 1)) + Pr.map (fun e => (e.1, e.2 + 1)),
            ?_, ?_, ?_⟩
          · rw [Multiset.map_add, snd_lift, snd_lift]
            exact ValidDepths.join _ _ hVl hVr
          · rw [Multiset.map_add, fst_lift, fst_lift, hWl, hWr, List.map_append,
              Multiset.coe_add]
          · have hcost : pairCost (Pl.map (fun e => (e.1, e.2 + 1)) +
                Pr.map (fun e => (e.1, e.2 + 1))) =
                pairCost (Pl.map (fun e => (e.1, e.2 + 1))) +
                  pairCost (Pr.map (fun e => (e.1, e.2 + 1))) := by
              simp [pairCost]
            rw [hcost, pairCost_lift, pairCost_lift, hWl, hWr, Multiset.sum_coe,
              Multiset.sum_coe]
            linarith

theorem table_weights_pos (S : List Char) (f : List Int) (hv : ValidTable S f)
    (e : Char × Int) (he : e ∈ table S f) : 0 < e.2 :=
  hv.2.2.2 e.2 (List.of_mem_zip (a := e.1) (b := e.2) he).2

theorem table_ne_nil (S : List Char) (f : List Int) (hne : S ≠ [])
    (hlen : S.length = f.length) : table S f ≠ [] := by
  cases S with
  | nil => exact absurd rfl hne
  | cons c S =>
    cases f with
    | nil => simp at hlen
    | cons w f => simp [table]

theorem wpl_le_of_leaves (tie : TieBreak) (S : List Char) (f : List Int) (t t2 : HuffmanNode)
    (hv : ValidTable S f) (hb : buildHuffmanTree tie S f = .ok t)
    (hp2 : (leaves t2).Perm (table S f)) :
    weightedPathLength t ≤ weightedPathLength t2 := by
  have hne2 : leaves t2 ≠ [] := by
    intro h0
    rw [h0] at hp2
    exact table_ne_nil S f hv.1 hv.2.1 hp2.symm.eq_nil
  have hpos2 : ∀ e ∈ leaves t2, 0 ≤ e.2 := fun e he =>
    le_of_lt (table_weights_pos S f hv e (hp2.mem_iff.mp he))
  obtain ⟨P, hV, hW, hc⟩ := exists_full_pairs t2 hne2 hpos2
  have hW2 : P.map Prod.fst = (((table S f).map Prod.snd : List Int) : Multiset Int) := by
    rw [hW, Multiset.coe_eq_coe]
    exact hp2.map Prod.snd
  exact le_trans (build_optimal tie S f t hb P hV hW2) hc

theorem wpl_tie_independent (tie tie2 : TieBreak) (S : List Char) (f : List Int)
    (t t2 : HuffmanNode) (hv : ValidTable S f) (ht : buildHuffmanTree tie S f = .ok t)
    (ht2 : buildHuffmanTree tie2 S f = .ok t2) :
    weightedPathLength t2 = weightedPathLength t := by
  obtain ⟨_, _, _, hp⟩ := build_ok_spec tie S f t ht
  obtain ⟨_, _, _, hp2⟩ := build_ok_spec tie2 S f t2 ht2
  exact le_antisymm (wpl_le_of_leaves tie2 S f t2 t hv ht2 hp)
    (wpl_le_of_leaves tie S f t t2 hv ht hp2)

theorem pipelineTotals_eq_wpl (tie : TieBreak) (S : List Char) (f : List Int)
    (t : HuffmanNode) (hv : ValidTable S f) (hh : '#' ∉ S)
    (ht : buildHuffmanTree tie S f = .ok t) :
    pipelineTotals tie S f = .ok (weightedPathLength t, f.sum) := by
  obtain ⟨_, _, hm, hp⟩ := build_ok_spec tie S f t ht
  simp only [pipelineTotals, ht]
  rw [totals_eq_wpl t hm S f (le_of_eq hv.2.1) hp hv.2.2.1 hh, (hp.map Prod.snd).sum_eq,
    table, List.map_snd_zip S f (le_of_eq hv.2.1.symm)]

/-! ## Frequencies and code lengths -/

theorem depth_monotone (tie : TieBreak) (S : List Char) (f : List Int) (t : HuffmanNode)
    (hb : buildHuffmanTree tie S f = .ok t) (e1 e2 : (Char × Int) × Nat)
    (h1 : e1 ∈ leafDepths t) (h2 : e2 ∈ leafDepths t) (hlt : e2.1.2 < e1.1.2) :
    e1.2 ≤ e2.2 := by
  by_contra hd
  have hd2 : (e2.2 : Int) < (e1.2 : Int) := by
    have : e2.2 < e1.2 := not_le.mp hd
    exact_mod_cast this
  obtain ⟨_, _, hm, hp⟩ := build_ok_spec tie S f t hb
  have hne : e2 ≠ e1 := by
    intro h
    rw [h] at hlt
    exact lt_irrefl _ hlt
  have hm1 : e1 ∈ ((leafDepths t : List ((Char × Int) × Nat)) :
      Multiset ((Char × Int) × Nat)) := Multiset.mem_coe.mpr h1
  obtain ⟨L1, hL1⟩ := Multiset.exists_cons_of_mem hm1
  have hm2 : e2 ∈ L1 := by
    have : e2 ∈ e1 ::ₘ L1 := by
      rw [← hL1]
      exact Multiset.mem_coe.mpr h2
    rcases Multiset.mem_cons.mp this with h | h
    · exact absurd h hne
    · exact h
  obtain ⟨L2, hL2⟩ := Multiset.exists_cons_of_mem hm2
  have hwd : weightDepths t =
      (e1.1.2, e1.2) ::ₘ (e2.1.2, e2.2) ::ₘ L2.map (fun e => (e.1.2, e.2)) := by
    unfold weightDepths
    rw [← Multiset.map_coe, hL1, hL2, Multiset.map_cons, Multiset.map_cons]
  have hV := validDepths_of_merged t hm
  have hW := weightDepths_fst t
  have hc := pairCost_weightDepths t
  rw [hwd] at hV hW hc
  have hV2 : ValidDepths (((e1.1.2, e2.2) ::ₘ (e2.1.2, e1.2) ::ₘ
      L2.map (fun e => (e.1.2, e.2))).map Prod.snd) := by
    simp only [Multiset.map_cons] at hV ⊢
    rw [Multiset.cons_swap]
    exact hV
  have hW2 : ((e1.1.2, e2.2) ::ₘ (e2.1.2, e1.2) ::ₘ
      L2.map (fun e => (e.1.2, e.2))).map Prod.fst =
      (((table S f).map Prod.snd : List Int) : Multiset Int) := by
    simp only [Multiset.map_cons] at hW ⊢
    rw [hW, Multiset.coe_eq_coe]
    exact hp.map Prod.snd
  have hopt := build_optimal tie S f t hb _ hV2 hW2
  rw [← hc] at hopt
  simp only [pairCost_cons] at hopt
  nlinarith [mul_pos (sub_pos.mpr hlt) (sub_pos.mpr hd2)]

theorem codeLength_of_entry (tie : TieBreak) (S : List Char) (f : List Int)
    (t : HuffmanNode) (hb : buildHuffmanTree tie S f = .ok t) (hnd : S.Nodup)
    (hh : '#' ∉ S) (e : Char × Int) (he : e ∈ table S f) :
    (e, codeLength (generateCodes t [] []) e.1) ∈ leafDepths t := by
  obtain ⟨_, hlen, hm, hp⟩ := build_ok_spec tie S f t hb
  have hnd2 := (symbols_perm S f t hlen hp).nodup_iff.mpr hnd
  have hl : e ∈ leaves t := hp.mem_iff.mpr he
  rw [← leafDepths_fst] at hl
  obtain ⟨e2, he2, hfst⟩ := List.mem_map.mp hl
  have hS : e.1 ∈ S := (List.of_mem_zip (a := e.1) (b := e.2) he).1
  have hc : e2.1.1 ≠ '#' := by
    rw [hfst]
    exact fun h => hh (h ▸ hS)
  have hcl := codeLength_of_leaf t hm hnd2 e2 he2 hc
  rw [hfst] at hcl
  rw [hcl, ← hfst]
  exact he2

theorem exists_min_key {α : Type} (g : α → Int) (L : List α) (hL : L ≠ []) :
    ∃ x ∈ L, ∀ y ∈ L, g x ≤ g y := by
  induction L with
  | nil => exact absurd rfl hL
  | cons a L ih =>
    by_cases hL2 : L = []
    · subst hL2
      exact ⟨a, by simp, by simp⟩
    · obtain ⟨x, hx, hmin⟩ := ih hL2
      by_cases hax : g a ≤ g x
      · refine ⟨a, by simp, ?_⟩
        intro y hy
        rcases List.mem_cons.mp hy with rfl | hy
        · exact le_refl _
        · exact le_trans hax (hmin y hy)
      · refine ⟨x, by simp [hx], ?_⟩
        intro y hy
        rcases List.mem_cons.mp hy with rfl | hy
        · exact le_of_lt (not_le.mp hax)
        · exact hmin y hy

theorem codeLength_monotone (tie : TieBreak) (S : List Char) (f : List Int)
    (t : HuffmanNode) (hb : buildHuffmanTree tie S f = .ok t) (hnd : S.Nodup)
    (hh : '#' ∉ S) (e1 e2 : Char × Int) (h1 : e1 ∈ table S f) (h2 : e2 ∈ table S f)
    (hlt : e2.2 < e1.2) :
    codeLength (generateCodes t [] []) e1.1 ≤ codeLength (generateCodes t [] []) e2.1 :=
  depth_monotone tie S f t hb (e1, _) (e2, _)
    (codeLength_of_entry tie S f t hb hnd hh e1 h1)
    (codeLength_of_entry tie S f t hb hnd hh e2 h2) hlt

/-! ## The 32-bit build agrees with the exact one while no sum overflows -/

theorem wrap32_of_range (x : Int) (h0 : 0 ≤ x) (h1 : x < 2147483648) : wrap32 x = x := by
  unfold wrap32
  rw [Int.emod_eq_of_lt (by omega) (by omega)]
  omega

theorem leaves_sum_nonneg (tbl : List (Char × Int)) (hpos : ∀ e ∈ tbl, 0 < e.2)
    (L : List (Char × Int)) (hL : ∀ e ∈ L, e ∈ tbl) : 0 ≤ (L.map Prod.snd).sum := by
  apply List.sum_nonneg
  intro x hx
  obtain ⟨e, he, rfl⟩ := List.mem_map.mp hx
  exact le_of_lt (hpos e (hL e he))

theorem merge_sum_in_range (tbl : List (Char × Int)) (q : MinHeap) (a b : HuffmanNode)
    (hinv : HeapInv tbl q) (hpos : ∀ e ∈ tbl, 0 < e.2)
    (hsum : (tbl.map Prod.snd).sum < 2147483648) (ha : a ∈ q) (hb : b ∈ q.erase a) :
    0 ≤ a.freq + b.freq ∧ a.freq + b.freq < 2147483648 := by
  obtain ⟨hm, hp⟩ := hinv
  have hbq : b ∈ q := List.mem_of_mem_erase hb
  have hperm : q.Perm (a :: b :: (q.erase a).erase b) :=
    (List.perm_cons_erase ha).trans ((List.perm_cons_erase hb).cons a)
  have hp2 : ((a :: b :: (q.erase a).erase b).flatMap leaves).Perm tbl :=
    (hperm.flatMap_right leaves).symm.trans hp
  have htot := (hp2.map Prod.snd).sum_eq
  simp only [List.flatMap_cons, List.map_append, List.sum_append] at htot
  have hmem : ∀ e ∈ (a :: b :: (q.erase a).erase b).flatMap leaves, e ∈ tbl :=
    fun e he => hp2.mem_iff.mp he
  simp only [List.flatMap_cons, List.mem_append] at hmem
  have h1 := leaves_sum_nonneg tbl hpos (leaves a) (fun e he => hmem e (Or.inl he))
  have h2 := leaves_sum_nonneg tbl hpos (leaves b) (fun e he => hmem e (Or.inr (Or.inl he)))
  have h3 := leaves_sum_nonneg tbl hpos (((q.erase a).erase b).flatMap leaves)
    (fun e he => hmem e (Or.inr (Or.inr he)))
  rw [freq_eq_sum_leaves a (hm a ha), freq_eq_sum_leaves b (hm b hbq)]
  constructor <;> omega

theorem mergeStep32_eq (tie : TieBreak) (tbl : List (Char × Int)) (q : MinHeap)
    (hinv : HeapInv tbl q) (hpos : ∀ e ∈ tbl, 0 < e.2)
    (hsum : (tbl.map Prod.snd).sum < 2147483648) (h1 : 1 < q.length) :
    mergeStep32 tie q = mergeStep tie q := by
  obtain ⟨a, b, ha, hb, hta, htb, hstep⟩ := mergeStep_eq tie q h1
  obtain ⟨hr0, hr1⟩ := merge_sum_in_range tbl q a b hinv hpos hsum ha hb
  rw [hstep]
  simp only [mergeStep32, hta, pop_of_top tie q a hta, htb, pop_of_top tie _ b htb, bind,
    Except.bind, pure, Except.pure, intAdd, wrap32_of_range _ hr0 hr1]

theorem mergeLoop32_eq (tie : TieBreak) (tbl : List (Char × Int))
    (hpos : ∀ e ∈ tbl, 0 < e.2) (hsum : (tbl.map Prod.snd).sum < 2147483648) :
    ∀ (fuel : Nat) (q : MinHeap), HeapInv tbl q →
      mergeLoop32 tie fuel q = mergeLoop tie fuel q := by
  intro fuel
  induction fuel with
  | zero =>
    intro q _
    rfl
  | succ fuel ih =>
    intro q hinv
    by_cases h1 : 1 < q.length
    · obtain ⟨a, b, ha, hb, _, _, hstep⟩ := mergeStep_eq tie q h1
      have hinv2 := heapInv_step tbl q a b hinv ha hb
      have h32 := mergeStep32_eq tie tbl q hinv hpos hsum h1
      simp only [mergeLoop32, mergeLoop, h1, if_true, h32, hstep, bind, Except.bind]
      exact ih _ hinv2
    · simp only [mergeLoop32, mergeLoop, h1, if_false]

theorem build32_eq (tie : TieBreak) (S : List Char) (f : List Int) (hv : ValidTable S f)
    (hsum : f.sum < 2147483648) :
    buildHuffmanTree32 tie S f = buildHuffmanTree tie S f := by
  have hinit := initLeaves_eq S f [] (le_of_eq hv.2.1)
  rw [List.nil_append] at hinit
  have hpos : ∀ e ∈ table S f, 0 < e.2 := fun e he => table_weights_pos S f hv e he
  have hs : ((table S f).map Prod.snd).sum < 2147483648 := by
    rw [table, List.map_snd_zip S f (le_of_eq hv.2.1.symm)]
    exact hsum
  simp only [buildHuffmanTree32, buildHuffmanTree, hinit, bind, Except.bind,
    mergeLoop32_eq tie (table S f) hpos hs _ _ (heapInv_init (table S f))]

theorem huffmanCodes32_eq (tie : TieBreak) (S : List Char) (f : List Int)
    (hv : ValidTable S f) (hsum : f.sum < 2147483648) :
    huffmanCodes32 tie S f = huffmanCodes tie S f := by
  simp only [huffmanCodes32, huffmanCodes, build32_eq tie S f hv hsum]

theorem pipelineTotals32_eq (tie : TieBreak) (S : List Char) (f : List Int)
    (hv : ValidTable S f) (hsum : f.sum < 2147483648) :
    pipelineTotals32 tie S f = pipelineTotals tie S f := by
  simp only [pipelineTotals32, pipelineTotals, build32_eq tie S f hv hsum]

/-! ## Claims that depend on the `int` arithmetic -/

/-- Order of the code lengths in the exact build: strictly higher frequency gives a code
that is no longer, some symbol of maximal frequency has a code of minimal length, and
some symbol of minimal frequency has a code of maximal length. -/
theorem codeLength_order_exact (tie : TieBreak) (S : List Char) (f : List Int)
    (hv : ValidTable S f) (hh : '#' ∉ S) :
    ∃ m, huffmanCodes tie S f = .ok m ∧
      (∀ c ∈ S, (m.find c).isSome) ∧
      (∀ e1 ∈ table S f, ∀ e2 ∈ table S f, e2.2 < e1.2 →
        codeLength m e1.1 ≤ codeLength m e2.1) ∧
      (∃ e1 ∈ table S f, (∀ e ∈ table S f, e.2 ≤ e1.2) ∧
        ∀ e ∈ table S f, codeLength m e1.1 ≤ codeLength m e.1) ∧
      (∃ e2 ∈ table S f, (∀ e ∈ table S f, e2.2 ≤ e.2) ∧
        ∀ e ∈ table S f, codeLength m e.1 ≤ codeLength m e2.1) := by
  obtain ⟨t, ht, hm, hp⟩ := build_spec tie S f hv.1 (le_of_eq hv.2.1)
  have hmono := codeLength_monotone tie S f t ht hv.2.2.1 hh
  have htne := table_ne_nil S f hv.1 hv.2.1
  refine ⟨_, huffmanCodes_ok tie S f t ht, ?_, ?_, ?_, ?_⟩
  · intro c hc
    rw [find_isSome_iff, (codes_keys t hm).2 c]
    exact ⟨(symbols_perm S f t (le_of_eq hv.2.1) hp).mem_iff.mpr hc, fun h => hh (h ▸ hc)⟩
  · intro e1 h1 e2 h2 hlt
    exact hmono e1 e2 h1 h2 hlt
  · obtain ⟨a, ha, hamax⟩ := exists_min_key (fun e : Char × Int => - e.2) (table S f) htne
    have hfne : (table S f).filter (fun e => decide (e.2 = a.2)) ≠ [] :=
      List.ne_nil_of_mem (List.mem_filter.mpr ⟨ha, by simp⟩)
    obtain ⟨b, hb, hbmin⟩ := exists_min_key
      (fun e : Char × Int => (codeLength (generateCodes t [] []) e.1 : Int)) _ hfne
    obtain ⟨hbt, hbw⟩ := List.mem_filter.mp hb
    have hbw2 : b.2 = a.2 := by simpa using hbw
    refine ⟨b, hbt, ?_, ?_⟩
    · intro e he
      have := hamax e he
      simp only at this
      omega
    · intro e he
      by_cases heq : e.2 = a.2
      · have := hbmin e (List.mem_filter.mpr ⟨he, by simpa using heq⟩)
        exact_mod_cast this
      · have h3 := hamax e he
        simp only at h3
        exact hmono b e hbt he (by omega)
  · obtain ⟨a, ha, hamin⟩ := exists_min_key (fun e : Char × Int => e.2) (table S f) htne
    have hfne : (table S f).filter (fun e => decide (e.2 = a.2)) ≠ [] :=
      List.ne_nil_of_mem (List.mem_filter.mpr ⟨ha, by simp⟩)
    obtain ⟨b, hb, hbmax⟩ := exists_min_key
      (fun e : Char × Int => - (codeLength (generateCodes t [] []) e.1 : Int)) _ hfne
    obtain ⟨hbt, hbw⟩ := List.mem_filter.mp hb
    have hbw2 : b.2 = a.2 := by simpa using hbw
    refine ⟨b, hbt, ?_, ?_⟩
    · intro e he
      have := hamin e he
      simp only at this
      omega
    · intro e he
      by_cases heq : e.2 = a.2
      · have := hbmax e (List.mem_filter.mpr ⟨he, by simpa using heq⟩)
        simp only at this
        omega
      · have h3 := hamin e he
        simp only at h3
        exact hmono e b he hbt (by omega)

/-- Claim C14, counterexample: on the valid table `#`, `a`, `b`, `c` with frequencies
1, 1, 2, 2 the tree has weighted path length 12, but the total bits reported are 10,
and 9 under another tie-breaking: the weighted path length is not the total bits, and
two runs that break ties differently do not report the same total bits. -/
theorem huffman_total_bits_counterexample :
    ValidTable ['#', 'a', 'b', 'c'] [1, 1, 2, 2] ∧
    buildHuffmanTree32 (fun _ => 0) ['#', 'a', 'b', 'c'] [1, 1, 2, 2] =
      .ok (node '#' 6 (node '#' 2 (leafOf ('#', 1)) (leafOf ('a', 1)))
        (node '#' 4 (leafOf ('b', 2)) (leafOf ('c', 2)))) ∧
    weightedPathLength
      (node '#' 6 (node '#' 2 (leafOf ('#', 1)) (leafOf ('a', 1)))
        (node '#' 4 (leafOf ('b', 2)) (leafOf ('c', 2)))) = 12 ∧
    pipelineTotals32 (fun _ => 0) ['#', 'a', 'b', 'c'] [1, 1, 2, 2] = .ok (10, 5) ∧
    pipelineTotals32 (fun _ => 1) ['#', 'a', 'b', 'c'] [1, 1, 2, 2] = .ok (9, 5) :=
  ⟨by unfold ValidTable; decide, by rfl, by rfl, by rfl, by rfl⟩

/-- Claim C14, amended: for every valid frequency table whose frequencies sum to less
than 2^31, the weighted path length of the tree that buildHuffmanTree returns is at
most that of every binary tree whose leaves are the table's entries; hence the trees of
two runs that break ties differently have the same weighted path length; and when no
symbol is `'#'`, that length is the total bits that every run reports. -/
theorem huffman_tree_optimal (tie : TieBreak) (S : List Char) (f : List Int)
    (hv : ValidTable S f) (hsum : f.sum < 2147483648) :
    ∃ t, buildHuffmanTree32 tie S f = .ok t ∧
      (∀ t2, (leaves t2).Perm (table S f) →
        weightedPathLength t ≤ weightedPathLength t2) ∧
      (∀ tie2 t2, buildHuffmanTree32 tie2 S f = .ok t2 →
        weightedPathLength t2 = weightedPathLength t) ∧
      ('#' ∉ S → ∀ tie2, pipelineTotals32 tie2 S f = .ok (weightedPathLength t, f.sum)) := by
  obtain ⟨t, ht, _, _⟩ := build_spec tie S f hv.1 (le_of_eq hv.2.1)
  refine ⟨t, ?_, ?_, ?_, ?_⟩
  · rw [build32_eq tie S f hv hsum]
    exact ht
  · intro t2 hp2
    exact wpl_le_of_leaves tie S f t t2 hv ht hp2
  · intro tie2 t2 ht2
    rw [build32_eq tie2 S f hv hsum] at ht2
    exact wpl_tie_independent tie tie2 S f t t2 hv ht ht2
  · intro hh tie2
    obtain ⟨t2, ht2, _, _⟩ := build_spec tie2 S f hv.1 (le_of_eq hv.2.1)
    rw [pipelineTotals32_eq tie2 S f hv hsum, pipelineTotals_eq_wpl tie2 S f t2 hv hh ht2,
      wpl_tie_independent tie tie2 S f t t2 hv ht ht2]

/-- Witness of the amended claim C14 on a table with equal weights. -/
theorem huffman_tree_optimal_witness :
    ValidTable ['a', 'b', 'c', 'd'] [1, 1, 2, 2] ∧
    ([1, 1, 2, 2] : List Int).sum < 2147483648 ∧
    ∃ t, buildHuffmanTree32 (fun _ => 0) ['a', 'b', 'c', 'd'] [1, 1, 2, 2] = .ok t ∧
      (∀ t2, (leaves t2).Perm (table ['a', 'b', 'c', 'd'] [1, 1, 2, 2]) →
        weightedPathLength t ≤ weightedPathLength t2) ∧
      (∀ tie2 t2, buildHuffmanTree32 tie2 ['a', 'b', 'c', 'd'] [1, 1, 2, 2] = .ok t2 →
        weightedPathLength t2 = weightedPathLength t) ∧
      ('#' ∉ ['a', 'b', 'c', 'd'] →
        ∀ tie2, pipelineTotals32 tie2 ['a', 'b', 'c', 'd'] [1, 1, 2, 2] =
          .ok (weightedPathLength t, ([1, 1, 2, 2] : List Int).sum)) :=
  ⟨by unfold ValidTable; decide, by decide,
    huffman_tree_optimal (fun _ => 0) ['a', 'b', 'c', 'd'] [1, 1, 2, 2]
      (by unfold ValidTable; decide) (by decide)⟩

/-- Claim C16, counterexample: in the valid table `a`, `b`, `c` with frequency 1 each,
`a` has maximal frequency but a longer code than `c`, and `c` has minimal frequency but
a shorter code than `a`. -/
theorem code_lengths_counterexample :
    ValidTable ['a', 'b', 'c'] [1, 1, 1] ∧ '#' ∉ (['a', 'b', 'c'] : List Char) ∧
    huffmanCodes32 (fun _ => 0) ['a', 'b', 'c'] [1, 1, 1] =
      .ok [('a', ['1', '0']), ('b', ['1', '1']), ('c', ['0'])] ∧
    (∀ e ∈ table ['a', 'b', 'c'] [1, 1, 1], e.2 ≤ 1 ∧ 1 ≤ e.2) ∧
    codeLength [('a', ['1', '0']), ('b', ['1', '1']), ('c', ['0'])] 'c' <
      codeLength [('a', ['1', '0']), ('b', ['1', '1']), ('c', ['0'])] 'a' :=
  ⟨by unfold ValidTable; decide, by decide, by rfl, by decide, by decide⟩

/-- Claim C16, amended: for every valid frequency table whose symbols are not `'#'` and
whose frequencies sum to less than 2^31, every symbol has a code, and a symbol of
strictly higher frequency has a code that is no longer; so some symbol of maximal
frequency has a code of minimal length and some symbol of minimal frequency has a code
of maximal length. -/
theorem code_lengths_monotone (tie : TieBreak) (S : List Char) (f : List Int)
    (hv : ValidTable S f) (hh : '#' ∉ S) (hsum : f.sum < 2147483648) :
    ∃ m, huffmanCodes32 tie S f = .ok m ∧
      (∀ c ∈ S, (m.find c).isSome) ∧
      (∀ e1 ∈ table S f, ∀ e2 ∈ table S f, e2.2 < e1.2 →
        codeLength m e1.1 ≤ codeLength m e2.1) ∧
      (∃ e1 ∈ table S f, (∀ e ∈ table S f, e.2 ≤ e1.2) ∧
        ∀ e ∈ table S f, codeLength m e1.1 ≤ codeLength m e.1) ∧
      (∃ e2 ∈ table S f, (∀ e ∈ table S f, e2.2 ≤ e.2) ∧
        ∀ e ∈ table S f, codeLength m e.1 ≤ codeLength m e2.1) := by
  rw [huffmanCodes32_eq tie S f hv hsum]
  exact codeLength_order_exact tie S f hv hh

/-- Witness of the amended claim C16 on a table with a tie and a strict maximum. -/
theorem code_lengths_monotone_witness :
    ValidTable ['a', 'b', 'c'] [1, 1, 2] ∧ '#' ∉ (['a', 'b', 'c'] : List Char) ∧
    ([1, 1, 2] : List Int).sum < 2147483648 ∧
    ∃ m, huffmanCodes32 (fun _ => 0) ['a', 'b', 'c'] [1, 1, 2] = .ok m ∧
      (∀ c ∈ ['a', 'b', 'c'], (m.find c).isSome) ∧
      (∀ e1 ∈ table ['a', 'b', 'c'] [1, 1, 2], ∀ e2 ∈ table ['a', 'b', 'c'] [1, 1, 2],
        e2.2 < e1.2 → codeLength m e1.1 ≤ codeLength m e2.1) ∧
      (∃ e1 ∈ table ['a', 'b', 'c'] [1, 1, 2],
        (∀ e ∈ table ['a', 'b', 'c'] [1, 1, 2], e.2 ≤ e1.2) ∧
        ∀ e ∈ table ['a', 'b', 'c'] [1, 1, 2], codeLength m e1.1 ≤ codeLength m e.1) ∧
      (∃ e2 ∈ table ['a', 'b', 'c'] [1, 1, 2],
        (∀ e ∈ table ['a', 'b', 'c'] [1, 1, 2], e2.2 ≤ e.2) ∧
        ∀ e ∈ table ['a', 'b', 'c'] [1, 1, 2], codeLength m e.1 ≤ codeLength m e2.1) :=
  ⟨by unfold ValidTable; decide, by decide, by decide,
    code_lengths_monotone (fun _ => 0) ['a', 'b', 'c'] [1, 1, 2]
      (by unfold ValidTable; decide) (by decide) (by decide)⟩

/-- Claim C19, the code at the failing input `a ↦ 2147483647`, `b ↦ 1`: the `int` sum of
the two weights wraps, so the root weight and the sum of the internal weights are
-2147483648, while the `long long` totals are 2147483648 bits and 2147483648 symbols. -/
theorem root_weight_overflow :
    buildHuffmanTree32 (fun _ => 0) ['a', 'b'] [2147483647, 1] =
      .ok (node '#' (-2147483648) (leafOf ('b', 1)) (leafOf ('a', 2147483647))) ∧
    (node '#' (-2147483648) (leafOf ('b', 1)) (leafOf ('a', 2147483647))).freq =
      -2147483648 ∧
    internalWeightSum (node '#' (-2147483648) (leafOf ('b', 1)) (leafOf ('a', 2147483647))) =
      -2147483648 ∧
    pipelineTotals32 (fun _ => 0) ['a', 'b'] [2147483647, 1] =
      .ok (2147483648, 2147483648) :=
  ⟨by rfl, by rfl, by rfl, by rfl⟩

end Huffman
